import Mathlib

/-!
Shallow embedding of `src/bindings/python/cntk/graph.py`.

Nodes of the computation graph are identified by natural numbers.  The Python
code never inspects a node's type directly: it probes attributes
(`block_root` / `block_arguments_mapping`, `root_function.inputs`,
`is_output` / `owner`) and swallows the attribute errors.  We therefore model
the externally-defined object model by a `NodeKind` that records which of the
probed attributes a node carries:

* `block blockRoot mapping inputs` — a `BlockFunction`: it has `block_root`
  (the composite), `block_arguments_mapping` (pairs of
  (composite formal input, actual input)), and, being a `Function`, a
  `root_function` whose `inputs` are `inputs`;
* `func inputs` — an ordinary `Function` node: `root_function.inputs = inputs`
  (in the source `root_function` of a primitive function is the function
  itself, so we identify the node with its root function);
* `outVar owner` — a `Variable` with `is_output = True` and the given `owner`;
* `inputVar` — a `Variable` with `is_output = False`;
* `plain` — a node carrying none of the probed attributes: every probe raises
  `AttributeError`, which the source swallows.

A `Graph` packs the object model: the node universe is `{0, ..., size - 1}`,
and `name`, `opName`, `uid`, `outputs` model the homonymous attributes used by
the name-lookup wrappers and by `output_function_graph`.
-/

namespace CntkGraph

inductive NodeKind where
  | block (blockRoot : Nat) (mapping : List (Nat × Nat)) (inputs : List Nat)
  | func (inputs : List Nat)
  | outVar (owner : Nat)
  | inputVar
  | plain
deriving DecidableEq, Repr

structure Graph where
  size : Nat
  kind : Nat → NodeKind
  name : Nat → String
  opName : Nat → String
  uid : Nat → String
  outputs : Nat → List Nat

def isBlockKind : NodeKind → Bool
  | .block _ _ _ => true
  | _ => false

def isOutVarKind : NodeKind → Bool
  | .outVar _ => true
  | _ => false

/-- Nodes with `root_function` (Function nodes, including BlockFunctions). -/
def isFunctionNode : NodeKind → Bool
  | .block _ _ _ => true
  | .func _ => true
  | _ => false

/-- `root_function.inputs` of a Function node (empty for non-functions). -/
def funcInputs : NodeKind → List Nat
  | .block _ _ inputs => inputs
  | .func inputs => inputs
  | _ => []

/-- `max_depth is None or depth < max_depth` (graph.py line 31). -/
def withinMaxDepth (max_depth : Option Nat) (depth : Nat) : Bool :=
  match max_depth with
  | none => true
  | some md => decide (depth < md)

/-- `if visitor(node): accum.append((node, distance))`. -/
def appendIf (b : Bool) (accum : List (Nat × Nat)) (x : Nat × Nat) :
    List (Nat × Nat) :=
  if b then accum ++ [x] else accum

/--
One iteration of the `while stack:` body of `depth_first_search`
(graph.py lines 27-64) for an unvisited popped node, returning the new
`(stack, accum, visited)`.  The Lean stack keeps its top at the head, so
Python's `stack.pop()` is our head, `stack.append(x)` is `x :: stack`, and
`stack.extend(xs)` is `xs.reverse ++ stack`.
-/
def dfsStep (g : Graph) (visitor : Nat → Bool) (max_depth : Option Nat)
    (node distance depth : Nat) (stack : List (Nat × Nat × Nat))
    (accum : List (Nat × Nat)) (visited : Finset Nat) :
    List (Nat × Nat × Nat) × List (Nat × Nat) × Finset Nat :=
  match g.kind node with
  | .block composite mapping inputs =>
    if withinMaxDepth max_depth depth then
      -- BlockFunction branch (lines 32-43): push the actual inputs of the
      -- block-arguments mapping, mark the mapped-away composite formals as
      -- visited, push the composite root one Block level deeper, and apply
      -- the visitor to the node itself.
      ((composite, distance + 1, depth + 1) ::
          (mapping.map (fun p => (p.2, distance + 1, depth))).reverse ++ stack,
        appendIf (visitor node) accum (node, distance),
        insert node (visited ∪ (mapping.map Prod.fst).toFinset))
    else
      -- Depth limit reached: the first `try` is skipped, the node is handled
      -- as a plain Function node via `root_function.inputs` (lines 46-48).
      ((inputs.map (fun i => (i, distance + 1, depth))).reverse ++ stack,
        appendIf (visitor node) accum (node, distance),
        insert node visited)
  | .func inputs =>
    -- Function node (lines 46-48) followed by the visitor (lines 60-63).
    ((inputs.map (fun i => (i, distance + 1, depth))).reverse ++ stack,
      appendIf (visitor node) accum (node, distance),
      insert node visited)
  | .outVar owner =>
    -- OutputVariable node (lines 52-56): push the owner instead; the visitor
    -- is never consulted and the node is never accumulated.
    ((owner, distance + 1, depth) :: stack, accum, insert node visited)
  | .inputVar =>
    -- `is_output` is False: fall through to the visitor (lines 60-63).
    (stack, appendIf (visitor node) accum (node, distance), insert node visited)
  | .plain =>
    -- No probed attribute: both `try`s fail silently, the node contributes no
    -- successors, and the visitor is still applied (lines 57-63).
    (stack, appendIf (visitor node) accum (node, distance), insert node visited)

/--
The `while stack:` loop of `depth_first_search`, with explicit fuel; `none`
means the fuel ran out.  `dfsFuel` below always suffices on closed graphs.
-/
def dfsLoop (g : Graph) (visitor : Nat → Bool) (max_depth : Option Nat) :
    Nat → List (Nat × Nat × Nat) → List (Nat × Nat) → Finset Nat →
      Option (List (Nat × Nat))
  | _, [], accum, _ => some accum
  | 0, _ :: _, _, _ => none
  | fuel + 1, (node, distance, depth) :: stack, accum, visited =>
    if node ∈ visited then
      dfsLoop g visitor max_depth fuel stack accum visited
    else
      dfsLoop g visitor max_depth fuel
        (dfsStep g visitor max_depth node distance depth stack accum visited).1
        (dfsStep g visitor max_depth node distance depth stack accum visited).2.1
        (dfsStep g visitor max_depth node distance depth stack accum visited).2.2

/-- The successors that one iteration may push for a given node. -/
def nodeSuccs (g : Graph) (n : Nat) : List Nat :=
  match g.kind n with
  | .block composite mapping inputs => composite :: mapping.map Prod.snd ++ inputs
  | .func inputs => inputs
  | .outVar owner => [owner]
  | .inputVar => []
  | .plain => []

/-- A finite graph: every edge out of a node of the universe stays inside. -/
def Graph.Closed (g : Graph) : Prop :=
  ∀ n, n < g.size → ∀ m ∈ nodeSuccs g n, m < g.size

instance (g : Graph) : Decidable (Graph.Closed g) :=
  inferInstanceAs (Decidable (∀ n, n < g.size → ∀ m ∈ nodeSuccs g n, m < g.size))

/-- An upper bound on the number of pushes of a single iteration. -/
def pushBound (g : Graph) : Nat :=
  (Finset.range g.size).sup fun n => (nodeSuccs g n).length

/-- Fuel that always suffices for the traversal of a closed graph. -/
def dfsFuel (g : Graph) : Nat :=
  g.size * (pushBound g + 1) + 2

/-- The `(node, distance)` accumulator produced by `depth_first_search`. -/
def dfsAccum (g : Graph) (root : Nat) (visitor : Nat → Bool)
    (max_depth : Option Nat) : Option (List (Nat × Nat)) :=
  dfsLoop g visitor max_depth (dfsFuel g) [(root, 0, 0)] [] ∅

/--
`depth_first_search(root, visitor, max_depth, sort_by_distance)`
(graph.py lines 7-69).  Python's stable `accum.sort(key=lambda tpl: tpl[1])`
is modelled by the stable `List.mergeSort` on the distance component.
-/
def depth_first_search (g : Graph) (root : Nat) (visitor : Nat → Bool)
    (max_depth : Option Nat) (sort_by_distance : Bool) : Option (List Nat) :=
  (dfsAccum g root visitor max_depth).map fun accum =>
    ((if sort_by_distance then
        accum.mergeSort fun a b => decide (a.2 ≤ b.2)
      else accum).map Prod.fst)

/-- Reachability along the edges the traversal follows. -/
def ReachG (g : Graph) : Nat → Nat → Prop :=
  Relation.ReflTransGen fun a b => b ∈ nodeSuccs g a

/-- `find_all_with_name(node, node_name, max_depth)` (graph.py lines 71-88). -/
def find_all_with_name (g : Graph) (node : Nat) (node_name : String)
    (max_depth : Option Nat) : Option (List Nat) :=
  depth_first_search g node (fun x => g.name x == node_name) max_depth false

/--
The dynamically-typed `node_name` argument of the lookup wrappers: either an
actual `str` or a value of some other type (carrying its type name), against
which the wrappers run their `isinstance(node_name, str)` check.
-/
inductive PyNameArg where
  | str (s : String)
  | nonStr (typeName : String)
deriving DecidableEq, Repr

/--
`find_by_name(node, node_name, max_depth)` (graph.py lines 90-119).
`some (Except.error msg)` models a raised `ValueError`; the outer `Option` is
the fuel of the underlying traversal (always `some` on closed graphs).
-/
def find_by_name (g : Graph) (node : Nat) (node_name : PyNameArg)
    (max_depth : Option Nat) : Option (Except String (Option Nat)) :=
  match node_name with
  | .nonStr t =>
    some (Except.error ("node name has to be a string. You gave a " ++ t))
  | .str s =>
    (depth_first_search g node (fun x => g.name x == s) max_depth false).map
      fun result =>
        if result.length > 1 then
          Except.error ("found multiple functions matching " ++ s ++
            ". If that was expected call find_all_with_name")
        else
          match result with
          | [] => Except.ok none
          | r :: _ => Except.ok (some r)

/-- `try_find_closest_by_name(node, node_name, max_depth)` (lines 121-147). -/
def try_find_closest_by_name (g : Graph) (node : Nat) (node_name : PyNameArg)
    (max_depth : Option Nat) : Option (Except String (Option Nat)) :=
  match node_name with
  | .nonStr t =>
    some (Except.error ("node name has to be a string. You gave a " ++ t))
  | .str s =>
    (depth_first_search g node (fun x => g.name x == s) max_depth true).map
      fun result =>
        match result with
        | [] => Except.ok none
        | r :: _ => Except.ok (some r)

/-- Python's `", "`-separated accumulation of the input uids
(graph.py lines 216-221: `model += child.uid`, plus `", "` between items). -/
def commaJoin : List String → String
  | [] => ""
  | [s] => s
  | s :: rest => s ++ ", " ++ commaJoin rest

/--
The textual line `output_function_graph` accumulates for one Function node
(graph.py lines 211, 216-227, without the final `'\n'`):
`op_name(uid_1, ..., uid_k) -> output_uid` where the `uid_i` are the uids of
`node.inputs` and `output_uid` is `node.outputs[0].uid`.  (On an empty
`outputs` the Python raises `IndexError`; the model takes uid of `headI`.)
-/
def modelLine (g : Graph) (n : Nat) : String :=
  g.opName n ++ "(" ++ commaJoin ((funcInputs (g.kind n)).map g.uid) ++
    ") -> " ++ g.uid ((g.outputs n).headI)

/--
One iteration of the `while stack:` body of `output_function_graph`
(graph.py lines 196-248) for an unvisited popped node, returning the new
`(stack, accum, visited, model)`.  The source reassigns
`node = node.root_function`; as in `dfsStep`, the root function of a function
node is identified with the node itself.  Unlike `depth_first_search`, the
OutputVariable branch has no `continue`, so every popped unvisited node —
output variables included — reaches `accum.append(node)` (the visitor is the
constant-True `lambda x: True` of line 192).
-/
def exportStep (g : Graph) (node : Nat) (stack : List Nat) (accum : List Nat)
    (visited : Finset Nat) (model : String) :
    List Nat × List Nat × Finset Nat × String :=
  match g.kind node with
  | .block _ _ inputs =>
    (inputs.reverse ++ stack, accum ++ [node], insert node visited,
      model ++ modelLine g node ++ "\n")
  | .func inputs =>
    (inputs.reverse ++ stack, accum ++ [node], insert node visited,
      model ++ modelLine g node ++ "\n")
  | .outVar owner =>
    (owner :: stack, accum ++ [node], insert node visited, model)
  | .inputVar =>
    (stack, accum ++ [node], insert node visited, model)
  | .plain =>
    (stack, accum ++ [node], insert node visited, model)

/-- The `while stack:` loop of `output_function_graph`, with explicit fuel. -/
def exportLoop (g : Graph) :
    Nat → List Nat → List Nat → Finset Nat → String →
      Option (List Nat × String)
  | _, [], accum, _, model => some (accum, model)
  | 0, _ :: _, _, _, _ => none
  | fuel + 1, node :: stack, accum, visited, model =>
    if node ∈ visited then
      exportLoop g fuel stack accum visited model
    else
      exportLoop g fuel
        (exportStep g node stack accum visited model).1
        (exportStep g node stack accum visited model).2.1
        (exportStep g node stack accum visited model).2.2.1
        (exportStep g node stack accum visited model).2.2.2

/-- Python's `model.split("\n")`, on the character list. -/
def splitNlChars : List Char → List (List Char)
  | [] => [[]]
  | c :: cs =>
    let r := splitNlChars cs
    if c = '\n' then [] :: r else (c :: r.headI) :: r.tail

/-- Python's `model.split("\n")`. -/
def pySplitNl (s : String) : List String :=
  (splitNlChars s.data).map String.mk

/-- Python's `"\n".join(pieces)`. -/
def joinNl : List String → String
  | [] => ""
  | [s] => s
  | s :: rest => s ++ "\n" ++ joinNl rest

/--
The observable outcome of `output_function_graph`: the returned string, whether
`import pydot_ng` was attempted, and which files were written (format, path),
in the order the source writes them (svg, pdf, png, dot).
-/
structure ExportResult where
  text : String
  importAttempted : Bool
  writes : List (String × String)
deriving DecidableEq, Repr

instance {ε α : Type} [DecidableEq ε] [DecidableEq α] :
    DecidableEq (Except ε α) := fun a b =>
  match a, b with
  | .error x, .error y =>
    if h : x = y then .isTrue (h ▸ rfl)
    else .isFalse fun hh => h (Except.error.inj hh)
  | .ok x, .ok y =>
    if h : x = y then .isTrue (h ▸ rfl)
    else .isFalse fun hh => h (Except.ok.inj hh)
  | .error _, .ok _ => .isFalse fun hh => Except.noConfusion hh
  | .ok _, .error _ => .isFalse fun hh => Except.noConfusion hh

/-- One `if (path): dot_object.write_fmt(path, prog='dot')` guard of
graph.py lines 250-257.  Python's `if (path):` tests truthiness, not
`is not None`: an empty-string path is falsy, so it is not written (even
though `write_to_file`, which uses `!= None`, still triggers the import). -/
def pathWrite (fmt : String) (path : Option String) : List (String × String) :=
  match path with
  | some p => if p = "" then [] else [(fmt, p)]
  | none => []

/-- The files `output_function_graph` writes, as (format, path) pairs, in the
order the source writes them (graph.py lines 250-257: svg, pdf, png, dot). -/
def writesFor (dot png pdf svg : Option String) : List (String × String) :=
  pathWrite "svg" svg ++ pathWrite "pdf" pdf ++
    pathWrite "png" png ++ pathWrite "dot" dot

/--
`output_function_graph(node, dot_file_path, png_file_path, pdf_file_path,
svg_file_path)` (graph.py lines 149-260).  `pydotAvailable` models whether
`import pydot_ng` succeeds; `some (Except.error msg)` models the raised
`ImportError`; the outer `Option` is the fuel of the traversal (always `some`
on closed graphs).  The `scale` argument and the pydot drawing only affect the
rendered files, which the model records as `writes`.
-/
def output_function_graph (g : Graph) (node : Nat) (pydotAvailable : Bool)
    (dot_file_path png_file_path pdf_file_path svg_file_path : Option String) :
    Option (Except String ExportResult) :=
  let write_to_file := dot_file_path.isSome || png_file_path.isSome ||
    pdf_file_path.isSome || svg_file_path.isSome
  if write_to_file && !pydotAvailable then
    some (Except.error
      "SVG, PDF, PNG, and DOT format requires pydot_ng package. Unable to import pydot_ng.")
  else
    (exportLoop g (dfsFuel g) [node] [] ∅ "").map fun r =>
      Except.ok
        { text := joinNl ((pySplitNl r.2).reverse)
          importAttempted := write_to_file
          writes := writesFor dot_file_path png_file_path pdf_file_path
            svg_file_path }

/-- The model-string lines contributed by a list of visited nodes: one
`modelLine` per Function node, in order. -/
def funcLines (g : Graph) (l : List Nat) : List String :=
  (l.filter fun n => isFunctionNode (g.kind n)).map (modelLine g)

/-- The model-string fragment contributed by a list of visited nodes. -/
def linesStr (g : Graph) : List Nat → String
  | [] => ""
  | n :: rest =>
    (if isFunctionNode (g.kind n) then modelLine g n ++ "\n" else "") ++
      linesStr g rest

/-! ### Concrete example graphs used by witnesses and counterexamples -/

/-- `0 = Function(inputs=[1])`, `1 = OutputVariable(owner=2)`,
`2 = Function(inputs=[])`. -/
def exA : Graph where
  size := 3
  kind := fun n =>
    match n with
    | 0 => .func [1]
    | 1 => .outVar 2
    | 2 => .func []
    | _ => .plain
  name := fun n => match n with | 1 => "target" | _ => "other"
  opName := fun _ => "Plus"
  uid := fun n => match n with | 0 => "U0" | 1 => "U1" | 2 => "U2" | _ => "UX"
  outputs := fun n => [n]

/-- `0 = Function(inputs=[1])`, `1` a node with none of the probed
attributes. -/
def exB : Graph where
  size := 2
  kind := fun n =>
    match n with
    | 0 => .func [1]
    | _ => .plain
  name := fun _ => "n"
  opName := fun _ => "Plus"
  uid := fun n => match n with | 0 => "U0" | 1 => "U1" | _ => "UX"
  outputs := fun n => [n]

/-- A cyclic graph: `0 = Function(inputs=[1])`, `1 = Function(inputs=[0])`. -/
def exCycle : Graph where
  size := 2
  kind := fun n =>
    match n with
    | 0 => .func [1]
    | _ => .func [0]
  name := fun n => match n with | 0 => "a" | _ => "b"
  opName := fun _ => "Times"
  uid := fun n => match n with | 0 => "U0" | _ => "U1"
  outputs := fun n => [n]

/-- A graph with a BlockFunction: `0 = BlockFunction(block_root=1,
block_arguments_mapping=[(2, 3)], root_function.inputs=[3])`,
`1 = Function(inputs=[2])` (the composite), `2` the composite formal input,
`3` the actual input. -/
def exBlock : Graph where
  size := 4
  kind := fun n =>
    match n with
    | 0 => .block 1 [(2, 3)] [3]
    | 1 => .func [2]
    | 2 => .inputVar
    | _ => .inputVar
  name := fun n => match n with | 0 => "blk" | _ => "v"
  opName := fun _ => "Block"
  uid := fun n => match n with | 0 => "U0" | 1 => "U1" | 2 => "U2" | _ => "U3"
  outputs := fun n => [n]

/-! ### Termination: fuel sufficiency for the traversal loops -/

lemma length_nodeSuccs_le_pushBound (g : Graph) {n : Nat} (h : n < g.size) :
    (nodeSuccs g n).length ≤ pushBound g :=
  Finset.le_sup (f := fun n => (nodeSuccs g n).length) (Finset.mem_range.mpr h)

lemma filter_card_lt_insert {S : Nat} {vis w : Finset Nat} {n : Nat}
    (hsub : vis ⊆ w) (hn : n < S) (hnv : n ∉ vis) :
    (vis.filter fun m => m < S).card <
      ((insert n w).filter fun m => m < S).card := by
  have h1 : insert n (vis.filter fun m => m < S) ⊆
      (insert n w).filter fun m => m < S := by
    intro x hx
    rcases Finset.mem_insert.1 hx with rfl | hx
    · exact Finset.mem_filter.2 ⟨Finset.mem_insert_self _ _, hn⟩
    · obtain ⟨hxv, hxs⟩ := Finset.mem_filter.1 hx
      exact Finset.mem_filter.2 ⟨Finset.mem_insert_of_mem (hsub hxv), hxs⟩
  have h2 : n ∉ vis.filter fun m => m < S := fun h => hnv (Finset.mem_filter.1 h).1
  have h3 := Finset.card_le_card h1
  rw [Finset.card_insert_of_not_mem h2] at h3
  omega

lemma filter_lt_card_le (vis : Finset Nat) (S : Nat) :
    (vis.filter fun m => m < S).card ≤ S := by
  have hsub : (vis.filter fun m => m < S) ⊆ Finset.range S := by
    intro x hx
    exact Finset.mem_range.2 (Finset.mem_filter.1 hx).2
  simpa using Finset.card_le_card hsub

lemma measure_step {X Y Z lt ls P f : Nat}
    (e1 : Y + (P + 1) ≤ X) (e2 : Z ≤ Y) (h3 : ls ≤ lt + P)
    (hm : X + (lt + 1) < f + 1) : Z + ls < f := by omega

/-- The DFS loop never runs out of fuel on a closed graph, provided the fuel
dominates the measure `(unvisited nodes) * (pushes per step + 1) + stack`. -/
lemma dfsLoop_isSome (g : Graph) (hc : g.Closed) (v : Nat → Bool)
    (md : Option Nat) :
    ∀ fuel stack accum visited,
      (∀ e ∈ stack, (e : Nat × Nat × Nat).1 < g.size) →
      (g.size - ((visited.filter fun m => m < g.size).card)) *
          (pushBound g + 1) + stack.length < fuel →
      (dfsLoop g v md fuel stack accum visited).isSome := by
  intro fuel
  induction fuel with
  | zero =>
    intro st acc vis hst hm
    exact absurd hm (Nat.not_lt_zero _)
  | succ f ih =>
    intro st acc vis hst hm
    match st with
    | [] => simp [dfsLoop]
    | (n, d, dep) :: tl =>
      have hn : n < g.size := hst (n, d, dep) (List.mem_cons_self _ _)
      have htl : ∀ e ∈ tl, (e : Nat × Nat × Nat).1 < g.size :=
        fun e he => hst e (List.mem_cons_of_mem _ he)
      rw [dfsLoop]
      by_cases hv : n ∈ vis
      · rw [if_pos hv]
        apply ih tl acc vis htl
        simp only [List.length_cons] at hm
        omega
      · rw [if_neg hv]
        have hsucc := hc n hn
        have hlen := length_nodeSuccs_le_pushBound g hn
        set c := ((vis.filter fun m => m < g.size)).card with hcdef
        simp only [List.length_cons] at hm
        have harith : ∀ vis2 : Finset Nat, vis ⊆ vis2 → ∀ ls : Nat,
            ls ≤ tl.length + pushBound g →
            (g.size - ((insert n vis2).filter fun m => m < g.size).card) *
                (pushBound g + 1) + ls < f := by
          intro vis2 hsub ls hls
          have hc' := filter_card_lt_insert hsub hn hv
          have hcS := filter_lt_card_le (insert n vis2) g.size
          refine measure_step (Y := (g.size - c - 1) * (pushBound g + 1))
            ?_ ?_ hls hm
          · have h1 : (g.size - c - 1 + 1) * (pushBound g + 1) ≤
                (g.size - c) * (pushBound g + 1) :=
              Nat.mul_le_mul_right _ (by omega)
            rw [Nat.succ_mul] at h1
            omega
          · exact Nat.mul_le_mul_right _ (by omega)
        rcases hk : g.kind n with ⟨composite, mapping, inputs⟩ | inputs | owner | _ | _
        · have hs : nodeSuccs g n = composite :: mapping.map Prod.snd ++ inputs := by
            simp [nodeSuccs, hk]
          rw [hs] at hsucc hlen
          by_cases hdep : withinMaxDepth md dep = true
          · simp only [dfsStep, hk, if_pos hdep]
            apply ih
            · intro e he
              rcases List.mem_append.1 he with h1 | h2
              · rcases List.mem_cons.1 h1 with rfl | h1
                · exact hsucc composite (List.mem_append_left _ (List.mem_cons_self _ _))
                · obtain ⟨p, hp, hpe⟩ := List.mem_map.1 (List.mem_reverse.1 h1)
                  rw [← hpe]
                  exact hsucc p.2 (List.mem_append_left _
                    (List.mem_cons_of_mem _ (List.mem_map_of_mem _ hp)))
              · exact htl e h2
            · apply harith _ Finset.subset_union_left
              have hlen2 : mapping.length + inputs.length + 1 ≤ pushBound g := by
                simp only [List.length_append, List.length_cons,
                  List.length_map] at hlen
                omega
              simp only [List.length_append, List.length_cons, List.length_reverse,
                List.length_map]
              omega
          · simp only [dfsStep, hk, if_neg hdep]
            apply ih
            · intro e he
              rcases List.mem_append.1 he with h1 | h2
              · obtain ⟨i, hi, hie⟩ := List.mem_map.1 (List.mem_reverse.1 h1)
                rw [← hie]
                exact hsucc i (List.mem_append_right _ hi)
              · exact htl e h2
            · apply harith _ (Finset.Subset.refl vis)
              have hlen2 : mapping.length + inputs.length + 1 ≤ pushBound g := by
                simp only [List.length_append, List.length_cons,
                  List.length_map] at hlen
                omega
              simp only [List.length_append, List.length_cons, List.length_reverse,
                List.length_map]
              omega
        · have hs : nodeSuccs g n = inputs := by simp [nodeSuccs, hk]
          rw [hs] at hsucc hlen
          simp only [dfsStep, hk]
          apply ih
          · intro e he
            rcases List.mem_append.1 he with h1 | h2
            · obtain ⟨i, hi, hie⟩ := List.mem_map.1 (List.mem_reverse.1 h1)
              rw [← hie]
              exact hsucc i hi
            · exact htl e h2
          · apply harith _ (Finset.Subset.refl vis)
            simp only [List.length_append, List.length_reverse, List.length_map]
            omega
        · have hs : nodeSuccs g n = [owner] := by simp [nodeSuccs, hk]
          rw [hs] at hsucc hlen
          simp only [dfsStep, hk]
          apply ih
          · intro e he
            rcases List.mem_cons.1 he with rfl | he
            · exact hsucc owner (List.mem_singleton_self _)
            · exact htl e he
          · apply harith _ (Finset.Subset.refl vis)
            simp only [List.length_cons, List.length_singleton] at hlen ⊢
            omega
        · simp only [dfsStep, hk]
          apply ih tl _ _ htl
          apply harith _ (Finset.Subset.refl vis)
          omega
        · simp only [dfsStep, hk]
          apply ih tl _ _ htl
          apply harith _ (Finset.Subset.refl vis)
          omega

/-- The export loop never runs out of fuel on a closed graph. -/
lemma exportLoop_isSome (g : Graph) (hc : g.Closed) :
    ∀ fuel stack accum visited model,
      (∀ e ∈ stack, e < g.size) →
      (g.size - ((visited.filter fun m => m < g.size).card)) *
          (pushBound g + 1) + stack.length < fuel →
      (exportLoop g fuel stack accum visited model).isSome := by
  intro fuel
  induction fuel with
  | zero =>
    intro st acc vis model hst hm
    exact absurd hm (Nat.not_lt_zero _)
  | succ f ih =>
    intro st acc vis model hst hm
    match st with
    | [] => simp [exportLoop]
    | n :: tl =>
      have hn : n < g.size := hst n (List.mem_cons_self _ _)
      have htl : ∀ e ∈ tl, e < g.size := fun e he => hst e (List.mem_cons_of_mem _ he)
      rw [exportLoop]
      by_cases hv : n ∈ vis
      · rw [if_pos hv]
        apply ih tl acc vis model htl
        simp only [List.length_cons] at hm
        omega
      · rw [if_neg hv]
        have hsucc := hc n hn
        have hlen := length_nodeSuccs_le_pushBound g hn
        set c := ((vis.filter fun m => m < g.size)).card with hcdef
        simp only [List.length_cons] at hm
        have harith : ∀ ls : Nat, ls ≤ tl.length + pushBound g →
            (g.size - ((insert n vis).filter fun m => m < g.size).card) *
                (pushBound g + 1) + ls < f := by
          intro ls hls
          have hc' := filter_card_lt_insert (Finset.Subset.refl vis) hn hv
          have hcS := filter_lt_card_le (insert n vis) g.size
          refine measure_step (Y := (g.size - c - 1) * (pushBound g + 1))
            ?_ ?_ hls hm
          · have h1 : (g.size - c - 1 + 1) * (pushBound g + 1) ≤
                (g.size - c) * (pushBound g + 1) :=
              Nat.mul_le_mul_right _ (by omega)
            rw [Nat.succ_mul] at h1
            omega
          · exact Nat.mul_le_mul_right _ (by omega)
        rcases hk : g.kind n with ⟨composite, mapping, inputs⟩ | inputs | owner | _ | _
        · have hs : nodeSuccs g n = composite :: mapping.map Prod.snd ++ inputs := by
            simp [nodeSuccs, hk]
          rw [hs] at hsucc hlen
          simp only [exportStep, hk]
          apply ih
          · intro e he
            rcases List.mem_append.1 he with h1 | h2
            · exact hsucc e (List.mem_append_right _ (List.mem_reverse.1 h1))
            · exact htl e h2
          · apply harith
            have hlen2 : mapping.length + inputs.length + 1 ≤ pushBound g := by
              simp only [List.length_append, List.length_cons,
                List.length_map] at hlen
              omega
            simp only [List.length_append, List.length_reverse]
            omega
        · have hs : nodeSuccs g n = inputs := by simp [nodeSuccs, hk]
          rw [hs] at hsucc hlen
          simp only [exportStep, hk]
          apply ih
          · intro e he
            rcases List.mem_append.1 he with h1 | h2
            · exact hsucc e (List.mem_reverse.1 h1)
            · exact htl e h2
          · apply harith
            simp only [List.length_append, List.length_reverse]
            omega
        · have hs : nodeSuccs g n = [owner] := by simp [nodeSuccs, hk]
          rw [hs] at hsucc hlen
          simp only [exportStep, hk]
          apply ih
          · intro e he
            rcases List.mem_cons.1 he with rfl | he
            · exact hsucc _ (List.mem_singleton_self _)
            · exact htl e he
          · apply harith
            simp only [List.length_cons, List.length_singleton] at hlen ⊢
            omega
        · simp only [exportStep, hk]
          apply ih _ _ _ _ htl
          apply harith
          omega
        · simp only [exportStep, hk]
          apply ih _ _ _ _ htl
          apply harith
          omega

/-! ### The generic loop-invariant principles -/

/--
If an invariant on `(stack, accum, visited)` is preserved both by popping an
already-visited node and by `dfsStep` on an unvisited node, then whenever the
DFS loop finishes it establishes the invariant on the final state.
-/
lemma dfsLoop_invariant (g : Graph) (v : Nat → Bool) (md : Option Nat)
    (Inv : List (Nat × Nat × Nat) → List (Nat × Nat) → Finset Nat → Prop)
    (hskip : ∀ n d dep st acc vis, n ∈ vis →
      Inv ((n, d, dep) :: st) acc vis → Inv st acc vis)
    (hstep : ∀ n d dep st acc vis, n ∉ vis →
      Inv ((n, d, dep) :: st) acc vis →
      Inv (dfsStep g v md n d dep st acc vis).1
        (dfsStep g v md n d dep st acc vis).2.1
        (dfsStep g v md n d dep st acc vis).2.2) :
    ∀ fuel st acc vis res, Inv st acc vis →
      dfsLoop g v md fuel st acc vis = some res → ∃ vis2, Inv [] res vis2 := by
  intro fuel
  induction fuel with
  | zero =>
    intro st acc vis res hi h
    match st with
    | [] =>
      rw [dfsLoop] at h
      obtain rfl : acc = res := by simpa using h
      exact ⟨vis, hi⟩
    | _ :: _ => simp [dfsLoop] at h
  | succ f ih =>
    intro st acc vis res hi h
    match st with
    | [] =>
      rw [dfsLoop] at h
      obtain rfl : acc = res := by simpa using h
      exact ⟨vis, hi⟩
    | (n, d, dep) :: tl =>
      rw [dfsLoop] at h
      by_cases hv : n ∈ vis
      · rw [if_pos hv] at h
        exact ih _ _ _ _ (hskip n d dep tl acc vis hv hi) h
      · rw [if_neg hv] at h
        exact ih _ _ _ _ (hstep n d dep tl acc vis hv hi) h

/-- The invariant principle for the export loop. -/
lemma exportLoop_invariant (g : Graph)
    (Inv : List Nat → List Nat → Finset Nat → String → Prop)
    (hskip : ∀ n st acc vis model, n ∈ vis →
      Inv (n :: st) acc vis model → Inv st acc vis model)
    (hstep : ∀ n st acc vis model, n ∉ vis →
      Inv (n :: st) acc vis model →
      Inv (exportStep g n st acc vis model).1
        (exportStep g n st acc vis model).2.1
        (exportStep g n st acc vis model).2.2.1
        (exportStep g n st acc vis model).2.2.2) :
    ∀ fuel st acc vis model res, Inv st acc vis model →
      exportLoop g fuel st acc vis model = some res →
      ∃ vis2, Inv [] res.1 vis2 res.2 := by
  intro fuel
  induction fuel with
  | zero =>
    intro st acc vis model res hi h
    match st with
    | [] =>
      rw [exportLoop] at h
      obtain rfl : (acc, model) = res := by simpa using h
      exact ⟨vis, hi⟩
    | _ :: _ => simp [exportLoop] at h
  | succ f ih =>
    intro st acc vis model res hi h
    match st with
    | [] =>
      rw [exportLoop] at h
      obtain rfl : (acc, model) = res := by simpa using h
      exact ⟨vis, hi⟩
    | n :: tl =>
      rw [exportLoop] at h
      by_cases hv : n ∈ vis
      · rw [if_pos hv] at h
        exact ih _ _ _ _ _ (hskip n tl acc vis model hv hi) h
      · rw [if_neg hv] at h
        exact ih _ _ _ _ _ (hstep n tl acc vis model hv hi) h

/-! ### What one DFS step does to the accumulator and the visited set -/

lemma appendIf_cases (b : Bool) (acc : List (Nat × Nat)) (x : Nat × Nat) :
    appendIf b acc x = acc ∨ (appendIf b acc x = acc ++ [x] ∧ b = true) := by
  cases b
  · left; simp [appendIf]
  · right; simp [appendIf]

/-- A step either leaves the accumulator unchanged or appends exactly the
popped `(node, distance)`; an append happens only when the visitor approves
and the node is not an output variable.  The visited set always gains the
popped node and never loses members. -/
lemma dfsStep_spec (g : Graph) (v : Nat → Bool) (md : Option Nat)
    (n d dep : Nat) (st : List (Nat × Nat × Nat)) (acc : List (Nat × Nat))
    (vis : Finset Nat) :
    ((dfsStep g v md n d dep st acc vis).2.1 = acc ∨
      ((dfsStep g v md n d dep st acc vis).2.1 = acc ++ [(n, d)] ∧
        v n = true ∧ isOutVarKind (g.kind n) = false)) ∧
    n ∈ (dfsStep g v md n d dep st acc vis).2.2 ∧
    vis ⊆ (dfsStep g v md n d dep st acc vis).2.2 := by
  rcases hk : g.kind n with ⟨c, m, i⟩ | i | o | _ | _
  · simp only [dfsStep, hk]
    by_cases hdep : withinMaxDepth md dep = true
    · simp only [if_pos hdep]
      refine ⟨?_, Finset.mem_insert_self _ _,
        fun x hx => Finset.mem_insert_of_mem (Finset.mem_union_left _ hx)⟩
      rcases appendIf_cases (v n) acc (n, d) with h | ⟨h, hb⟩
      · exact Or.inl h
      · exact Or.inr ⟨h, hb, by simp [isOutVarKind, hk]⟩
    · simp only [if_neg hdep]
      refine ⟨?_, Finset.mem_insert_self _ _,
        fun x hx => Finset.mem_insert_of_mem hx⟩
      rcases appendIf_cases (v n) acc (n, d) with h | ⟨h, hb⟩
      · exact Or.inl h
      · exact Or.inr ⟨h, hb, by simp [isOutVarKind, hk]⟩
  · simp only [dfsStep, hk]
    refine ⟨?_, Finset.mem_insert_self _ _,
      fun x hx => Finset.mem_insert_of_mem hx⟩
    rcases appendIf_cases (v n) acc (n, d) with h | ⟨h, hb⟩
    · exact Or.inl h
    · exact Or.inr ⟨h, hb, by simp [isOutVarKind, hk]⟩
  · simp only [dfsStep, hk]
    exact ⟨Or.inl (by trivial), Finset.mem_insert_self _ _,
      fun x hx => Finset.mem_insert_of_mem hx⟩
  · simp only [dfsStep, hk]
    refine ⟨?_, Finset.mem_insert_self _ _,
      fun x hx => Finset.mem_insert_of_mem hx⟩
    rcases appendIf_cases (v n) acc (n, d) with h | ⟨h, hb⟩
    · exact Or.inl h
    · exact Or.inr ⟨h, hb, by simp [isOutVarKind, hk]⟩
  · simp only [dfsStep, hk]
    refine ⟨?_, Finset.mem_insert_self _ _,
      fun x hx => Finset.mem_insert_of_mem hx⟩
    rcases appendIf_cases (v n) acc (n, d) with h | ⟨h, hb⟩
    · exact Or.inl h
    · exact Or.inr ⟨h, hb, by simp [isOutVarKind, hk]⟩

/-- The central loop invariant on the accumulator: entries satisfy the
visitor, are pairwise distinct, all lie in the visited set, and none is an
output variable. -/
def AccumInv (g : Graph) (v : Nat → Bool) (acc : List (Nat × Nat))
    (vis : Finset Nat) : Prop :=
  (∀ p ∈ acc, v (Prod.fst p) = true) ∧
  (acc.map Prod.fst).Nodup ∧
  (∀ p ∈ acc, Prod.fst p ∈ vis) ∧
  (∀ p ∈ acc, isOutVarKind (g.kind (Prod.fst p)) = false)

lemma dfsLoop_accumInv (g : Graph) (v : Nat → Bool) (md : Option Nat)
    (fuel : Nat) (st : List (Nat × Nat × Nat)) (acc : List (Nat × Nat))
    (vis : Finset Nat) (res : List (Nat × Nat))
    (hstart : AccumInv g v acc vis ∧ ∀ e ∈ st, (e : Nat × Nat × Nat).1 ∉ acc.map Prod.fst)
    (h : dfsLoop g v md fuel st acc vis = some res) :
    (∀ p ∈ res, v (Prod.fst p) = true) ∧
    (res.map Prod.fst).Nodup ∧
    (∀ p ∈ res, isOutVarKind (g.kind (Prod.fst p)) = false) := by
  have main := dfsLoop_invariant g v md
    (fun _ acc vis => AccumInv g v acc vis)
    (fun n d dep st acc vis _ hi => hi)
    (fun n d dep st acc vis hnv hi => by
      obtain ⟨hv, hnd, hsub, hov⟩ := hi
      obtain ⟨hacc, hmem, hgrow⟩ := dfsStep_spec g v md n d dep st acc vis
      rcases hacc with heq | ⟨heq, hb, hkind⟩
      · rw [heq]
        exact ⟨hv, hnd, fun p hp => hgrow (hsub p hp), hov⟩
      · rw [heq]
        have hnacc : n ∉ acc.map Prod.fst := by
          intro hmem2
          obtain ⟨p, hp, hpe⟩ := List.mem_map.1 hmem2
          exact hnv (hpe ▸ hsub p hp)
        refine ⟨?_, ?_, ?_, ?_⟩
        · intro p hp
          rcases List.mem_append.1 hp with hp | hp
          · exact hv p hp
          · rw [List.mem_singleton.1 hp]; exact hb
        · rw [List.map_append]
          simp only [List.map_cons, List.map_nil]
          exact List.Nodup.append hnd (List.nodup_singleton n)
            (by intro x hx hy
                rw [List.mem_singleton.1 hy] at hx
                exact hnacc hx)
        · intro p hp
          rcases List.mem_append.1 hp with hp | hp
          · exact hgrow (hsub p hp)
          · rw [List.mem_singleton.1 hp]; exact hmem
        · intro p hp
          rcases List.mem_append.1 hp with hp | hp
          · exact hov p hp
          · rw [List.mem_singleton.1 hp]; exact hkind)
    fuel st acc vis res hstart.1 h
  obtain ⟨vis2, hv, hnd, _, hov⟩ := main
  exact ⟨hv, hnd, hov⟩

lemma dfsAccum_isSome (g : Graph) (hc : g.Closed) {root : Nat}
    (hr : root < g.size) (v : Nat → Bool) (md : Option Nat) :
    ∃ a, dfsAccum g root v md = some a := by
  have h := dfsLoop_isSome g hc v md (dfsFuel g) [(root, 0, 0)] [] ∅
    (by intro e he
        rw [List.mem_singleton.1 he]
        exact hr)
    (by simp only [Finset.filter_empty, Finset.card_empty, Nat.sub_zero,
          List.length_singleton, dfsFuel]
        omega)
  exact Option.isSome_iff_exists.mp h

lemma dfsAccum_inv (g : Graph) (hc : g.Closed) {root : Nat}
    (hr : root < g.size) (v : Nat → Bool) (md : Option Nat) :
    ∃ a, dfsAccum g root v md = some a ∧
      (∀ p ∈ a, v (Prod.fst p) = true) ∧
      (a.map Prod.fst).Nodup ∧
      (∀ p ∈ a, isOutVarKind (g.kind (Prod.fst p)) = false) := by
  obtain ⟨a, ha⟩ := dfsAccum_isSome g hc hr v md
  refine ⟨a, ha, dfsLoop_accumInv g v md (dfsFuel g) [(root, 0, 0)] [] ∅ a
    ⟨⟨?_, ?_, ?_, ?_⟩, ?_⟩ ha⟩ <;> simp [AccumInv]

/-- Membership in the final node list returned by `depth_first_search`, in
terms of the accumulator. -/
lemma mem_final_list {a : List (Nat × Nat)} {sb : Bool} {x : Nat} :
    (x ∈ (if sb then a.mergeSort fun p q => decide (p.2 ≤ q.2)
        else a).map Prod.fst) ↔ ∃ p ∈ a, Prod.fst p = x := by
  cases sb <;> simp [List.mem_mergeSort]

lemma nodup_final_list {a : List (Nat × Nat)} (h : (a.map Prod.fst).Nodup)
    (sb : Bool) :
    ((if sb then a.mergeSort fun p q => decide (p.2 ≤ q.2)
        else a).map Prod.fst).Nodup := by
  cases sb
  · simpa using h
  · simp only [if_true]
    exact (((List.mergeSort_perm a _).map Prod.fst).nodup_iff).mpr h

/-! ### Completeness of the traversal on block-free graphs -/

lemma mem_appendIf_of_mem {b : Bool} {acc : List (Nat × Nat)}
    {x p : Nat × Nat} (h : p ∈ acc) : p ∈ appendIf b acc x := by
  cases b <;> simp [appendIf, h]

lemma appendIf_true {b : Bool} (hb : b = true) (acc : List (Nat × Nat))
    (x : Nat × Nat) : appendIf b acc x = acc ++ [x] := by
  simp [appendIf, hb]

/-- A node with the given id sits somewhere on the DFS stack. -/
def StackHas (st : List (Nat × Nat × Nat)) (y : Nat) : Prop :=
  ∃ e ∈ st, (e : Nat × Nat × Nat).1 = y

/--
On a graph with no `BlockFunction` nodes, the traversal started at `root`
reaches every node reachable along the successor edges, and accumulates every
reached node that satisfies the visitor — except output variables.
-/
lemma dfsLoop_complete_noblocks (g : Graph)
    (hnb : ∀ n, isBlockKind (g.kind n) = false)
    (v : Nat → Bool) (md : Option Nat) (root : Nat)
    (fuel : Nat) (res : List (Nat × Nat))
    (h : dfsLoop g v md fuel [(root, 0, 0)] [] ∅ = some res) :
    ∀ x, ReachG g root x → isOutVarKind (g.kind x) = false → v x = true →
      x ∈ res.map Prod.fst := by
  have main := dfsLoop_invariant g v md
    (fun st acc vis =>
      (root ∈ vis ∨ StackHas st root) ∧
      (∀ x ∈ vis, ∀ s ∈ nodeSuccs g x, s ∈ vis ∨ StackHas st s) ∧
      (∀ x ∈ vis, isOutVarKind (g.kind x) = false → v x = true →
        x ∈ acc.map Prod.fst))
    (fun n d dep st acc vis hnv hi => by
      obtain ⟨h1, h2, h3⟩ := hi
      refine ⟨?_, ?_, h3⟩
      · rcases h1 with h1 | ⟨e, he, hee⟩
        · exact Or.inl h1
        · rcases List.mem_cons.1 he with rfl | he
          · exact Or.inl (hee ▸ hnv)
          · exact Or.inr ⟨e, he, hee⟩
      · intro x hx s hs
        rcases h2 x hx s hs with h | ⟨e, he, hee⟩
        · exact Or.inl h
        · rcases List.mem_cons.1 he with rfl | he
          · exact Or.inl (hee ▸ hnv)
          · exact Or.inr ⟨e, he, hee⟩)
    (fun n d dep st acc vis hnv hi => by
      obtain ⟨h1, h2, h3⟩ := hi
      have hke := hnb n
      rcases hk : g.kind n with ⟨c, m, i⟩ | inputs | o | _ | _
      · rw [hk] at hke; simp [isBlockKind] at hke
      · -- Function node
        simp only [dfsStep, hk]
        refine ⟨?_, ?_, ?_⟩
        · rcases h1 with h1 | ⟨e, he, hee⟩
          · exact Or.inl (Finset.mem_insert_of_mem h1)
          · rcases List.mem_cons.1 he with rfl | he
            · exact Or.inl (hee ▸ Finset.mem_insert_self _ _)
            · exact Or.inr ⟨e, List.mem_append_right _ he, hee⟩
        · intro x hx s hs
          rcases Finset.mem_insert.1 hx with rfl | hx
          · rw [nodeSuccs, hk] at hs
            refine Or.inr ⟨(s, d + 1, dep), ?_, rfl⟩
            exact List.mem_append_left _
              (List.mem_reverse.2 (List.mem_map_of_mem _ hs))
          · rcases h2 x hx s hs with h | ⟨e, he, hee⟩
            · exact Or.inl (Finset.mem_insert_of_mem h)
            · rcases List.mem_cons.1 he with rfl | he
              · exact Or.inl (hee ▸ Finset.mem_insert_self _ _)
              · exact Or.inr ⟨e, List.mem_append_right _ he, hee⟩
        · intro x hx hxo hxv
          rcases Finset.mem_insert.1 hx with rfl | hx
          · rw [appendIf_true hxv]
            simp
          · exact List.mem_map.2
              (let ⟨p, hp, hpe⟩ := List.mem_map.1 (h3 x hx hxo hxv)
               ⟨p, mem_appendIf_of_mem hp, hpe⟩)
      · -- OutputVariable node
        simp only [dfsStep, hk]
        refine ⟨?_, ?_, ?_⟩
        · rcases h1 with h1 | ⟨e, he, hee⟩
          · exact Or.inl (Finset.mem_insert_of_mem h1)
          · rcases List.mem_cons.1 he with rfl | he
            · exact Or.inl (hee ▸ Finset.mem_insert_self _ _)
            · exact Or.inr ⟨e, List.mem_cons_of_mem _ he, hee⟩
        · intro x hx s hs
          rcases Finset.mem_insert.1 hx with rfl | hx
          · rw [nodeSuccs, hk, List.mem_singleton] at hs
            exact Or.inr ⟨(o, d + 1, dep), List.mem_cons_self _ _, hs.symm⟩
          · rcases h2 x hx s hs with h | ⟨e, he, hee⟩
            · exact Or.inl (Finset.mem_insert_of_mem h)
            · rcases List.mem_cons.1 he with rfl | he
              · exact Or.inl (hee ▸ Finset.mem_insert_self _ _)
              · exact Or.inr ⟨e, List.mem_cons_of_mem _ he, hee⟩
        · intro x hx hxo hxv
          rcases Finset.mem_insert.1 hx with rfl | hx
          · rw [hk] at hxo; simp [isOutVarKind] at hxo
          · exact h3 x hx hxo hxv
      · -- input Variable node
        simp only [dfsStep, hk]
        refine ⟨?_, ?_, ?_⟩
        · rcases h1 with h1 | ⟨e, he, hee⟩
          · exact Or.inl (Finset.mem_insert_of_mem h1)
          · rcases List.mem_cons.1 he with rfl | he
            · exact Or.inl (hee ▸ Finset.mem_insert_self _ _)
            · exact Or.inr ⟨e, he, hee⟩
        · intro x hx s hs
          rcases Finset.mem_insert.1 hx with rfl | hx
          · rw [nodeSuccs, hk] at hs
            simp at hs
          · rcases h2 x hx s hs with h | ⟨e, he, hee⟩
            · exact Or.inl (Finset.mem_insert_of_mem h)
            · rcases List.mem_cons.1 he with rfl | he
              · exact Or.inl (hee ▸ Finset.mem_insert_self _ _)
              · exact Or.inr ⟨e, he, hee⟩
        · intro x hx hxo hxv
          rcases Finset.mem_insert.1 hx with rfl | hx
          · rw [appendIf_true hxv]
            simp
          · exact List.mem_map.2
              (let ⟨p, hp, hpe⟩ := List.mem_map.1 (h3 x hx hxo hxv)
               ⟨p, mem_appendIf_of_mem hp, hpe⟩)
      · -- plain node
        simp only [dfsStep, hk]
        refine ⟨?_, ?_, ?_⟩
        · rcases h1 with h1 | ⟨e, he, hee⟩
          · exact Or.inl (Finset.mem_insert_of_mem h1)
          · rcases List.mem_cons.1 he with rfl | he
            · exact Or.inl (hee ▸ Finset.mem_insert_self _ _)
            · exact Or.inr ⟨e, he, hee⟩
        · intro x hx s hs
          rcases Finset.mem_insert.1 hx with rfl | hx
          · rw [nodeSuccs, hk] at hs
            simp at hs
          · rcases h2 x hx s hs with h | ⟨e, he, hee⟩
            · exact Or.inl (Finset.mem_insert_of_mem h)
            · rcases List.mem_cons.1 he with rfl | he
              · exact Or.inl (hee ▸ Finset.mem_insert_self _ _)
              · exact Or.inr ⟨e, he, hee⟩
        · intro x hx hxo hxv
          rcases Finset.mem_insert.1 hx with rfl | hx
          · rw [appendIf_true hxv]
            simp
          · exact List.mem_map.2
              (let ⟨p, hp, hpe⟩ := List.mem_map.1 (h3 x hx hxo hxv)
               ⟨p, mem_appendIf_of_mem hp, hpe⟩))
    fuel [(root, 0, 0)] [] ∅ res
    ⟨Or.inr ⟨(root, 0, 0), List.mem_singleton_self _, rfl⟩,
      fun x hx => absurd hx (Finset.not_mem_empty x),
      fun x hx => absurd hx (Finset.not_mem_empty x)⟩ h
  obtain ⟨vis2, hroot, hclosed, hcover⟩ := main
  have hroot2 : root ∈ vis2 := by
    rcases hroot with h | ⟨e, he, _⟩
    · exact h
    · exact absurd he (List.not_mem_nil e)
  have hreach : ∀ x, ReachG g root x → x ∈ vis2 := by
    intro x hx
    induction hx with
    | refl => exact hroot2
    | tail hab hbc ih =>
      rcases hclosed _ ih _ hbc with h | ⟨e, he, _⟩
      · exact h
      · exact absurd he (List.not_mem_nil e)
  intro x hx hxo hxv
  exact hcover x (hreach x hx) hxo hxv

/-! ### The visitor is never consulted on output variables -/

lemma dfsLoop_visitor_agree (g : Graph) (v1 v2 : Nat → Bool) (md : Option Nat)
    (hagree : ∀ x, isOutVarKind (g.kind x) = false → v1 x = v2 x) :
    ∀ fuel st acc vis,
      dfsLoop g v1 md fuel st acc vis = dfsLoop g v2 md fuel st acc vis := by
  intro fuel
  induction fuel with
  | zero =>
    intro st acc vis
    match st with
    | [] => rfl
    | _ :: _ => rfl
  | succ f ih =>
    intro st acc vis
    match st with
    | [] => rfl
    | (n, d, dep) :: tl =>
      rw [dfsLoop]
      conv_rhs => rw [dfsLoop]
      by_cases hv : n ∈ vis
      · rw [if_pos hv, if_pos hv]
        exact ih tl acc vis
      · rw [if_neg hv, if_neg hv]
        have hstep : dfsStep g v1 md n d dep tl acc vis =
            dfsStep g v2 md n d dep tl acc vis := by
          rcases hk : g.kind n with ⟨c, m, i⟩ | i | o | _ | _ <;>
            simp only [dfsStep, hk]
          · rw [hagree n (by simp [isOutVarKind, hk])]
          · rw [hagree n (by simp [isOutVarKind, hk])]
          · rw [hagree n (by simp [isOutVarKind, hk])]
          · rw [hagree n (by simp [isOutVarKind, hk])]
        rw [hstep]
        exact ih _ _ _

/-! ### Simulation between the export loop and the DFS loop -/

/--
On graphs with no blocks and no output variables, the export loop and the DFS
loop with the constant-True visitor and no depth limit run in lockstep: the
exporter's accumulator is the node projection of the DFS accumulator.
-/
lemma export_dfs_sim (g : Graph)
    (hnb : ∀ n, isBlockKind (g.kind n) = false)
    (hno : ∀ n, isOutVarKind (g.kind n) = false) :
    ∀ fuel (st1 : List (Nat × Nat × Nat)) (acc1 : List (Nat × Nat))
      (vis : Finset Nat) (model : String),
      (exportLoop g fuel (st1.map fun e => e.1) (acc1.map Prod.fst) vis
          model).map Prod.fst =
      (dfsLoop g (fun _ => true) none fuel st1 acc1 vis).map
        fun a => a.map Prod.fst := by
  intro fuel
  induction fuel with
  | zero =>
    intro st1 acc1 vis model
    match st1 with
    | [] => rfl
    | _ :: _ => rfl
  | succ f ih =>
    intro st1 acc1 vis model
    match st1 with
    | [] => rfl
    | (n, d, dep) :: tl =>
      show (exportLoop g (f + 1) (n :: tl.map fun e => e.1) _ _ _).map _ = _
      rw [exportLoop, dfsLoop]
      by_cases hv : n ∈ vis
      · rw [if_pos hv, if_pos hv]
        exact ih tl acc1 vis model
      · rw [if_neg hv, if_neg hv]
        have hkb := hnb n
        have hko := hno n
        rcases hk : g.kind n with ⟨c, m, i⟩ | inputs | o | _ | _
        · rw [hk] at hkb; simp [isBlockKind] at hkb
        · simp only [dfsStep, exportStep, hk, withinMaxDepth]
          have hs : inputs.reverse ++ tl.map (fun e => e.1) =
              (((inputs.map fun i => (i, d + 1, dep)).reverse ++ tl)).map
                fun e => (e : Nat × Nat × Nat).1 := by
            simp only [List.map_append, List.map_reverse, List.map_map]
            congr 2
            exact (List.map_id'' (fun x => rfl) inputs).symm
          have ha : acc1.map Prod.fst ++ [n] =
              (appendIf ((fun _ => true) n) acc1 (n, d)).map Prod.fst := by
            simp [appendIf]
          rw [hs, ha]
          exact ih _ _ _ _
        · rw [hk] at hko; simp [isOutVarKind] at hko
        · simp only [dfsStep, exportStep, hk]
          have ha : acc1.map Prod.fst ++ [n] =
              (appendIf ((fun _ => true) n) acc1 (n, d)).map Prod.fst := by
            simp [appendIf]
          rw [ha]
          exact ih _ _ _ _
        · simp only [dfsStep, exportStep, hk]
          have ha : acc1.map Prod.fst ++ [n] =
              (appendIf ((fun _ => true) n) acc1 (n, d)).map Prod.fst := by
            simp [appendIf]
          rw [ha]
          exact ih _ _ _ _

/-! ### The model string built by the export loop -/

lemma linesStr_append (g : Graph) (l1 l2 : List Nat) :
    linesStr g (l1 ++ l2) = linesStr g l1 ++ linesStr g l2 := by
  induction l1 with
  | nil => simp [linesStr]
  | cons n rest ih => simp [linesStr, ih, String.append_assoc]

/-- The final model string extends the initial one by exactly one
`op_name(...) -> uid` line per Function node appended to the accumulator. -/
lemma exportLoop_model (g : Graph) :
    ∀ fuel st acc vis model res,
      exportLoop g fuel st acc vis model = some res →
      ∃ new, res.1 = acc ++ new ∧ res.2 = model ++ linesStr g new := by
  intro fuel
  induction fuel with
  | zero =>
    intro st acc vis model res h
    match st with
    | [] =>
      rw [exportLoop] at h
      obtain rfl : (acc, model) = res := by simpa using h
      exact ⟨[], by simp [linesStr]⟩
    | _ :: _ => simp [exportLoop] at h
  | succ f ih =>
    intro st acc vis model res h
    match st with
    | [] =>
      rw [exportLoop] at h
      obtain rfl : (acc, model) = res := by simpa using h
      exact ⟨[], by simp [linesStr]⟩
    | n :: tl =>
      rw [exportLoop] at h
      by_cases hv : n ∈ vis
      · rw [if_pos hv] at h
        exact ih _ _ _ _ _ h
      · rw [if_neg hv] at h
        rcases hk : g.kind n with ⟨c, m, i⟩ | inputs | o | _ | _ <;>
          simp only [exportStep, hk] at h <;>
          obtain ⟨new, h1, h2⟩ := ih _ _ _ _ _ h
        · refine ⟨n :: new, by simpa using h1, ?_⟩
          rw [h2]
          simp [linesStr, isFunctionNode, hk, String.append_assoc]
        · refine ⟨n :: new, by simpa using h1, ?_⟩
          rw [h2]
          simp [linesStr, isFunctionNode, hk, String.append_assoc]
        · refine ⟨n :: new, by simpa using h1, ?_⟩
          rw [h2]
          simp [linesStr, isFunctionNode, hk]
        · refine ⟨n :: new, by simpa using h1, ?_⟩
          rw [h2]
          simp [linesStr, isFunctionNode, hk]
        · refine ⟨n :: new, by simpa using h1, ?_⟩
          rw [h2]
          simp [linesStr, isFunctionNode, hk]

/-! ### Splitting the model string back into its lines -/

lemma splitNlChars_line (core : List Char) (hc : ∀ c ∈ core, c ≠ '\n') :
    ∀ rest, splitNlChars (core ++ '\n' :: rest) = core :: splitNlChars rest := by
  induction core with
  | nil =>
    intro rest
    simp [splitNlChars]
  | cons c cs ih =>
    intro rest
    have hc0 : c ≠ '\n' := hc c (List.mem_cons_self _ _)
    have hcs : ∀ x ∈ cs, x ≠ '\n' := fun x hx => hc x (List.mem_cons_of_mem _ hx)
    rw [List.cons_append, splitNlChars]
    simp only [if_neg hc0, ih hcs rest]
    rfl

lemma funcLines_cons (g : Graph) (n : Nat) (l : List Nat) :
    funcLines g (n :: l) =
      if isFunctionNode (g.kind n) then modelLine g n :: funcLines g l
      else funcLines g l := by
  by_cases h : isFunctionNode (g.kind n) <;>
    simp [funcLines, List.filter_cons, h]

lemma pySplitNl_linesStr (g : Graph) (l : List Nat)
    (hnl : ∀ n ∈ l, ∀ c ∈ (modelLine g n).data, c ≠ '\n') :
    pySplitNl (linesStr g l) = funcLines g l ++ [""] := by
  induction l with
  | nil => simp [pySplitNl, linesStr, splitNlChars, funcLines]
  | cons n rest ih =>
    have hrest : ∀ m ∈ rest, ∀ c ∈ (modelLine g m).data, c ≠ '\n' :=
      fun m hm => hnl m (List.mem_cons_of_mem _ hm)
    by_cases h : isFunctionNode (g.kind n)
    · have hdata : (linesStr g (n :: rest)).data =
          (modelLine g n).data ++ '\n' :: (linesStr g rest).data := by
        simp only [linesStr, if_pos h, String.data_append]
        rw [List.append_assoc]
        rfl
      rw [pySplitNl, hdata,
        splitNlChars_line _ (hnl n (List.mem_cons_self _ _)) _]
      rw [funcLines_cons, if_pos h]
      simp only [List.map_cons]
      rw [← pySplitNl]
      rw [ih hrest]
      rfl
    · have hdata : linesStr g (n :: rest) = linesStr g rest := by
        simp only [linesStr, if_neg h, String.empty_append]
      rw [hdata, ih hrest, funcLines_cons, if_neg h]

/-- Every node the export loop accumulates lies inside the graph. -/
lemma exportLoop_accum_bound (g : Graph) (hc : g.Closed) :
    ∀ fuel st acc vis model res,
      (∀ x ∈ st, x < g.size) → (∀ x ∈ acc, x < g.size) →
      exportLoop g fuel st acc vis model = some res →
      ∀ x ∈ res.1, x < g.size := by
  intro fuel st acc vis model res hst hacc h
  have main := exportLoop_invariant g
    (fun st acc _ _ => (∀ x ∈ st, x < g.size) ∧ (∀ x ∈ acc, x < g.size))
    (fun n st acc vis model _ hi =>
      ⟨fun x hx => hi.1 x (List.mem_cons_of_mem _ hx), hi.2⟩)
    (fun n st acc vis model hnv hi => by
      obtain ⟨h1, h2⟩ := hi
      have hn : n < g.size := h1 n (List.mem_cons_self _ _)
      have htl : ∀ x ∈ st, x < g.size :=
        fun x hx => h1 x (List.mem_cons_of_mem _ hx)
      have hsucc := hc n hn
      have hacc2 : ∀ x ∈ acc ++ [n], x < g.size := by
        intro x hx
        rcases List.mem_append.1 hx with hx | hx
        · exact h2 x hx
        · rw [List.mem_singleton.1 hx]; exact hn
      rcases hk : g.kind n with ⟨c, m, i⟩ | inputs | o | _ | _ <;>
        simp only [exportStep, hk]
      · refine ⟨?_, hacc2⟩
        intro x hx
        rcases List.mem_append.1 hx with hx | hx
        · refine hsucc x ?_
          rw [nodeSuccs, hk]
          exact List.mem_append_right _ (List.mem_reverse.1 hx)
        · exact htl x hx
      · refine ⟨?_, hacc2⟩
        intro x hx
        rcases List.mem_append.1 hx with hx | hx
        · refine hsucc x ?_
          rw [nodeSuccs, hk]
          exact List.mem_reverse.1 hx
        · exact htl x hx
      · refine ⟨?_, hacc2⟩
        intro x hx
        rcases List.mem_cons.1 hx with rfl | hx
        · refine hsucc x ?_
          rw [nodeSuccs, hk]
          exact List.mem_singleton_self _
        · exact htl x hx
      · exact ⟨htl, hacc2⟩
      · exact ⟨htl, hacc2⟩)
    fuel st acc vis model res ⟨hst, hacc⟩ h
  obtain ⟨vis2, _, hres⟩ := main
  exact hres

/-- Sortedness of the distance-keyed merge sort. -/
lemma mergeSort_distance_sorted (a : List (Nat × Nat)) :
    (a.mergeSort fun p q => decide (p.2 ≤ q.2)).Pairwise
      fun p q => p.2 ≤ q.2 := by
  have h := @List.sorted_mergeSort (Nat × Nat)
    (fun p q => decide (p.2 ≤ q.2))
    (fun p q r hpq hqr => by
      simp only [decide_eq_true_eq] at hpq hqr ⊢
      omega)
    (fun p q => by
      simp only [Bool.or_eq_true, decide_eq_true_eq]
      omega) a
  exact h.imp fun hpq => by simpa using hpq

/-! ### Bridging the accumulator and the returned node list -/

lemma depth_first_search_eq_some (g : Graph) (root : Nat) (v : Nat → Bool)
    (md : Option Nat) (sb : Bool) (a : List (Nat × Nat))
    (ha : dfsAccum g root v md = some a) :
    depth_first_search g root v md sb =
      some ((if sb then a.mergeSort fun p q => decide (p.2 ≤ q.2)
        else a).map Prod.fst) := by
  rw [depth_first_search, ha]
  rfl

/-! ### Claim theorems -/

/--
**C1** (corrected).  Soundness holds as claimed: every element of the list
returned by `depth_first_search` satisfies the visitor.  The claimed
completeness — every node reachable from the root (within the depth limit)
that satisfies the visitor appears in the result — fails for output
variables, which the traversal replaces by their owners without ever
consulting the visitor (see the counterexample).  Amended completeness: on
graphs with no `BlockFunction` nodes, every reachable node that satisfies the
visitor and is not an output variable appears in the result.
-/
theorem dfs_visitor_sound_complete (g : Graph) (root : Nat) (v : Nat → Bool)
    (md : Option Nat) (sb : Bool) (hc : g.Closed) (hr : root < g.size) :
    ∃ l, depth_first_search g root v md sb = some l ∧
      (∀ x ∈ l, v x = true) ∧
      ((∀ n, isBlockKind (g.kind n) = false) →
        ∀ x, ReachG g root x → isOutVarKind (g.kind x) = false →
          v x = true → x ∈ l) := by
  obtain ⟨a, ha, hsound, hnd, hov⟩ := dfsAccum_inv g hc hr v md
  refine ⟨_, depth_first_search_eq_some g root v md sb a ha, ?_, ?_⟩
  · intro x hx
    obtain ⟨p, hp, hpe⟩ := mem_final_list.1 hx
    exact hpe ▸ hsound p hp
  · intro hnb x hx hxo hxv
    have hloop : dfsLoop g v md (dfsFuel g) [(root, 0, 0)] [] ∅ = some a := ha
    have hmem := dfsLoop_complete_noblocks g hnb v md root (dfsFuel g) a hloop
      x hx hxo hxv
    obtain ⟨p, hp, hpe⟩ := List.mem_map.1 hmem
    exact mem_final_list.2 ⟨p, hp, hpe⟩

/--
**C1 counterexample.**  In `exA` the output variable `1` is reachable from
the root `0` and satisfies the constant-True visitor, yet the returned list
is `[0, 2]`: the traversal silently replaced node `1` by its owner `2`, so
the claimed completeness (with no depth limit) is false.
-/
theorem dfs_completeness_counterexample :
    ¬ (∀ l, depth_first_search exA 0 (fun _ => true) none false = some l →
        ∀ x, ReachG exA 0 x → (fun _ => true) x = true → x ∈ l) := by
  intro h
  have h1 : (1 : Nat) ∈ [0, 2] := by
    refine h [0, 2] (by decide) 1 ?_ rfl
    exact Relation.ReflTransGen.single (by decide)
  exact absurd h1 (by decide)

/-- Witness for `dfs_visitor_sound_complete` at the concrete graph `exA`. -/
theorem dfs_visitor_sound_complete_witness :
    Graph.Closed exA ∧ 0 < exA.size ∧
    (∃ l, depth_first_search exA 0 (fun _ => true) none false = some l ∧
      (∀ x ∈ l, (fun _ => true) x = true) ∧
      ((∀ n, isBlockKind (exA.kind n) = false) →
        ∀ x, ReachG exA 0 x → isOutVarKind (exA.kind x) = false →
          (fun _ => true) x = true → x ∈ l)) :=
  ⟨by decide, by decide,
    dfs_visitor_sound_complete exA 0 (fun _ => true) none false
      (by decide) (by decide)⟩

/--
**C2** (confirmed).  On every closed graph — cyclic graphs included — the
traversal terminates (the fuel `dfsFuel` never runs out, so the result is
`some`), and the returned list contains no duplicates: a node is appended at
most once, because each popped node is added to the visited set in the same
iteration and visited nodes are skipped.
-/
theorem dfs_terminates_nodup (g : Graph) (root : Nat) (v : Nat → Bool)
    (md : Option Nat) (sb : Bool) (hc : g.Closed) (hr : root < g.size) :
    ∃ l, depth_first_search g root v md sb = some l ∧ l.Nodup := by
  obtain ⟨a, ha, _, hnd, _⟩ := dfsAccum_inv g hc hr v md
  exact ⟨_, depth_first_search_eq_some g root v md sb a ha,
    nodup_final_list hnd sb⟩

/-- Witness for `dfs_terminates_nodup` on the cyclic graph `exCycle`. -/
theorem dfs_terminates_nodup_witness :
    Graph.Closed exCycle ∧ 0 < exCycle.size ∧
    (∃ l, depth_first_search exCycle 0 (fun _ => true) none false = some l ∧
      l.Nodup) :=
  ⟨by decide, by decide,
    dfs_terminates_nodup exCycle 0 (fun _ => true) none false
      (by decide) (by decide)⟩

/--
**C3** (confirmed).  A `BlockFunction` node popped unvisited at block depth
`dep` is expanded specially when `max_depth` is `None` or `dep < max_depth`:
the actual inputs of `block_arguments_mapping` are pushed at `distance+1` and
unchanged depth, every mapped formal composite input is marked visited, and
the composite root is pushed at depth `dep+1` (the node itself is offered to
the visitor).  When `max_depth` is an integer and `dep ≥ max_depth`, the
block is not expanded: it is handled like an ordinary function node, its
`root_function.inputs` being pushed at the same block depth.
-/
theorem dfs_block_expansion (g : Graph) (v : Nat → Bool) (md : Option Nat)
    (fuel n d dep : Nat) (st : List (Nat × Nat × Nat)) (acc : List (Nat × Nat))
    (vis : Finset Nat) (composite : Nat) (mapping : List (Nat × Nat))
    (inputs : List Nat) (hk : g.kind n = .block composite mapping inputs)
    (hnv : n ∉ vis) :
    (withinMaxDepth md dep = true →
      dfsLoop g v md (fuel + 1) ((n, d, dep) :: st) acc vis =
        dfsLoop g v md fuel
          ((composite, d + 1, dep + 1) ::
            (mapping.map fun p => (p.2, d + 1, dep)).reverse ++ st)
          (appendIf (v n) acc (n, d))
          (insert n (vis ∪ (mapping.map Prod.fst).toFinset))) ∧
    (∀ m, md = some m → ¬ dep < m →
      dfsLoop g v md (fuel + 1) ((n, d, dep) :: st) acc vis =
        dfsLoop g v md fuel
          ((inputs.map fun i => (i, d + 1, dep)).reverse ++ st)
          (appendIf (v n) acc (n, d))
          (insert n vis)) := by
  constructor
  · intro hdep
    rw [dfsLoop, if_neg hnv]
    simp only [dfsStep, hk, if_pos hdep]
  · intro m hm hdep
    subst hm
    have hfalse : withinMaxDepth (some m) dep = false := by
      simp [withinMaxDepth, hdep]
    rw [dfsLoop, if_neg hnv]
    simp only [dfsStep, hk, hfalse, Bool.false_eq_true, if_false]

/-- Witness for `dfs_block_expansion` on the block graph `exBlock`. -/
theorem dfs_block_expansion_witness :
    exBlock.kind 0 = NodeKind.block 1 [(2, 3)] [3] ∧
    (0 : Nat) ∉ (∅ : Finset Nat) ∧
    ((withinMaxDepth (some 1) 0 = true →
      dfsLoop exBlock (fun _ => true) (some 1) 8 [(0, 0, 0)] [] ∅ =
        dfsLoop exBlock (fun _ => true) (some 1) 7
          ((1, 1, 1) :: ([((2 : Nat), (3 : Nat))].map
            fun p => (p.2, 1, 0)).reverse ++ [])
          (appendIf ((fun _ => true) 0) [] (0, 0))
          (insert 0 ((∅ : Finset Nat) ∪
            ([((2 : Nat), (3 : Nat))].map Prod.fst).toFinset))) ∧
    (∀ m, (some 1 : Option Nat) = some m → ¬ 0 < m →
      dfsLoop exBlock (fun _ => true) (some 1) 8 [(0, 0, 0)] [] ∅ =
        dfsLoop exBlock (fun _ => true) (some 1) 7
          (([(3 : Nat)].map fun i => (i, 1, 0)).reverse ++ [])
          (appendIf ((fun _ => true) 0) [] (0, 0))
          (insert 0 (∅ : Finset Nat)))) :=
  ⟨by decide, by decide,
    dfs_block_expansion exBlock (fun _ => true) (some 1) 7 0 0 0 [] [] ∅
      1 [(2, 3)] [3] (by decide) (by decide)⟩

/--
**C4** (confirmed).  With `sort_by_distance=True` the returned list is the
node projection of the accumulator sorted stably by the recorded distance
(the distance at which each accepted node was popped, i.e. first processed),
and that sorted accumulator is in non-decreasing distance order; with
`sort_by_distance=False` the accumulator is returned in accumulation order,
with no reordering.
-/
theorem dfs_sort_by_distance (g : Graph) (root : Nat) (v : Nat → Bool)
    (md : Option Nat) (a : List (Nat × Nat))
    (ha : dfsAccum g root v md = some a) :
    depth_first_search g root v md true =
      some ((a.mergeSort fun p q => decide (p.2 ≤ q.2)).map Prod.fst) ∧
    (a.mergeSort fun p q => decide (p.2 ≤ q.2)).Pairwise
      (fun p q => p.2 ≤ q.2) ∧
    depth_first_search g root v md false = some (a.map Prod.fst) := by
  refine ⟨?_, mergeSort_distance_sorted a, ?_⟩
  · simpa using depth_first_search_eq_some g root v md true a ha
  · simpa using depth_first_search_eq_some g root v md false a ha

/-- Witness for `dfs_sort_by_distance` on the block graph `exBlock`. -/
theorem dfs_sort_by_distance_witness :
    dfsAccum exBlock 0 (fun _ => true) none = some [(0, 0), (1, 1), (3, 1)] ∧
    (depth_first_search exBlock 0 (fun _ => true) none true =
      some (([((0 : Nat), (0 : Nat)), (1, 1), (3, 1)].mergeSort
        fun p q => decide (p.2 ≤ q.2)).map Prod.fst) ∧
    ([((0 : Nat), (0 : Nat)), (1, 1), (3, 1)].mergeSort
      fun p q => decide (p.2 ≤ q.2)).Pairwise (fun p q => p.2 ≤ q.2) ∧
    depth_first_search exBlock 0 (fun _ => true) none false =
      some ([((0 : Nat), (0 : Nat)), (1, 1), (3, 1)].map Prod.fst)) :=
  ⟨by decide,
    dfs_sort_by_distance exBlock 0 (fun _ => true) none
      [(0, 0), (1, 1), (3, 1)] (by decide)⟩

/--
**C5** (confirmed).  A popped unvisited node carrying none of the probed
attributes (`block_root`/`block_arguments_mapping`, `root_function`,
`is_output`) does not make the traversal fail: in the embedding the loop is
total and the `plain` branch models both swallowed `AttributeError`s.  Such
a node contributes no successors to the stack, and the visitor is still
applied to it (`appendIf (v n)`), exactly as in the fall-through of the
source.
-/
theorem dfs_plain_node (g : Graph) (v : Nat → Bool) (md : Option Nat)
    (fuel n d dep : Nat) (st : List (Nat × Nat × Nat)) (acc : List (Nat × Nat))
    (vis : Finset Nat) (hk : g.kind n = .plain) (hnv : n ∉ vis) :
    dfsLoop g v md (fuel + 1) ((n, d, dep) :: st) acc vis =
      dfsLoop g v md fuel st (appendIf (v n) acc (n, d)) (insert n vis) ∧
    dfsStep g v md n d dep st acc vis =
      (st, appendIf (v n) acc (n, d), insert n vis) := by
  constructor
  · rw [dfsLoop, if_neg hnv]
    simp only [dfsStep, hk]
  · simp only [dfsStep, hk]

/-- Witness for `dfs_plain_node` on node `1` of `exB`. -/
theorem dfs_plain_node_witness :
    exB.kind 1 = NodeKind.plain ∧ (1 : Nat) ∉ (∅ : Finset Nat) ∧
    (dfsLoop exB (fun _ => true) none 4 [(1, 0, 0)] [] ∅ =
      dfsLoop exB (fun _ => true) none 3 []
        (appendIf ((fun _ => true) 1) [] (1, 0)) (insert 1 ∅) ∧
    dfsStep exB (fun _ => true) none 1 0 0 [] [] ∅ =
      ([], appendIf ((fun _ => true) 1) [] (1, 0), insert 1 ∅)) :=
  ⟨by decide, by decide,
    dfs_plain_node exB (fun _ => true) none 3 1 0 0 [] [] ∅
      (by decide) (by decide)⟩

/-- Closed form of `find_by_name` on a `str` argument, given the traversal
result. -/
lemma find_by_name_str (g : Graph) (root : Nat) (s : String) (md : Option Nat)
    (l : List Nat)
    (h : depth_first_search g root (fun x => g.name x == s) md false = some l) :
    find_by_name g root (.str s) md = some (
      if l.length > 1 then
        Except.error ("found multiple functions matching " ++ s ++
          ". If that was expected call find_all_with_name")
      else match l with
        | [] => Except.ok none
        | r :: _ => Except.ok (some r)) := by
  rw [find_by_name, h]
  rfl

/--
**C9** (confirmed).  `find_by_name` raises `ValueError` exactly when the
`node_name` argument is not a `str` (the `isinstance` check, modelled by the
`nonStr` constructor) or when the underlying traversal finds more than one
node of that name within the depth limit.  When it does not raise it returns
`None` on no match and the unique match otherwise.  The embedding is pure, so
the graph is trivially left unchanged.
-/
theorem find_by_name_spec (g : Graph) (root : Nat) (arg : PyNameArg)
    (md : Option Nat) (hc : g.Closed) (hr : root < g.size) :
    (∀ t, arg = .nonStr t →
      ∃ msg, find_by_name g root arg md = some (Except.error msg)) ∧
    (∀ s, arg = .str s → ∃ l,
      depth_first_search g root (fun x => g.name x == s) md false = some l ∧
      ((∃ msg, find_by_name g root arg md = some (Except.error msg)) ↔
        1 < l.length) ∧
      (l = [] → find_by_name g root arg md = some (Except.ok none)) ∧
      (∀ r rest, l = r :: rest → l.length ≤ 1 →
        find_by_name g root arg md = some (Except.ok (some r)))) := by
  constructor
  · rintro t rfl
    exact ⟨_, rfl⟩
  · rintro s rfl
    obtain ⟨a, ha, _, _, _⟩ := dfsAccum_inv g hc hr (fun x => g.name x == s) md
    have hdfs : depth_first_search g root (fun x => g.name x == s) md false =
        some (a.map Prod.fst) := by
      simpa using depth_first_search_eq_some g root _ md false a ha
    have hch := find_by_name_str g root s md (a.map Prod.fst) hdfs
    rcases hl : a.map Prod.fst with _ | ⟨r, rest⟩ <;> rw [hl] at hdfs hch
    · simp only [List.length_nil, Nat.lt_irrefl, gt_iff_lt, if_false] at hch
      refine ⟨[], hdfs, ?_, ?_, ?_⟩
      · constructor
        · rintro ⟨msg, hmsg⟩
          rw [hch] at hmsg
          simp at hmsg
        · intro hlen
          simp at hlen
      · intro _
        exact hch
      · rintro r rest h _
        exact absurd h (by simp)
    · by_cases hlen : 1 < (r :: rest).length
      · rw [if_pos hlen] at hch
        refine ⟨r :: rest, hdfs, ?_, ?_, ?_⟩
        · exact ⟨fun _ => hlen, fun _ => ⟨_, hch⟩⟩
        · intro h
          exact absurd h (by simp)
        · rintro r' rest' heq hle
          exact absurd hlen (by omega)
      · rw [if_neg hlen] at hch
        refine ⟨r :: rest, hdfs, ?_, ?_, ?_⟩
        · constructor
          · rintro ⟨msg, hmsg⟩
            rw [hch] at hmsg
            simp at hmsg
          · intro h
            exact absurd h hlen
        · intro h
          exact absurd h (by simp)
        · rintro r' rest' heq _
          injection heq with h1 h2
          exact h1 ▸ hch

/-- Witness for `find_by_name_spec` on the cyclic graph `exCycle`. -/
theorem find_by_name_spec_witness :
    Graph.Closed exCycle ∧ 0 < exCycle.size ∧
    ((∀ t, PyNameArg.str "a" = .nonStr t →
      ∃ msg, find_by_name exCycle 0 (.str "a") none =
        some (Except.error msg)) ∧
    (∀ s, PyNameArg.str "a" = .str s → ∃ l,
      depth_first_search exCycle 0 (fun x => exCycle.name x == s) none false =
        some l ∧
      ((∃ msg, find_by_name exCycle 0 (.str "a") none =
        some (Except.error msg)) ↔ 1 < l.length) ∧
      (l = [] → find_by_name exCycle 0 (.str "a") none =
        some (Except.ok none)) ∧
      (∀ r rest, l = r :: rest → l.length ≤ 1 →
        find_by_name exCycle 0 (.str "a") none =
          some (Except.ok (some r))))) :=
  ⟨by decide, by decide,
    find_by_name_spec exCycle 0 (.str "a") none (by decide) (by decide)⟩

/--
**C10** (confirmed).  An output variable (a node without `root_function`
whose `is_output` is `True`) is never offered to the visitor and never
appears in any result: its owner is pushed in its place.  Consequently the
result of the traversal is unchanged if the visitor is modified arbitrarily
on output variables, and none of the three name-lookup wrappers can ever
return an output variable, even when its name matches.
-/
theorem dfs_output_variable_invariant (g : Graph) (root : Nat)
    (v : Nat → Bool) (md : Option Nat) (sb : Bool) :
    (∀ l, depth_first_search g root v md sb = some l →
      ∀ x ∈ l, isOutVarKind (g.kind x) = false) ∧
    (∀ v2, (∀ x, isOutVarKind (g.kind x) = false → v x = v2 x) →
      depth_first_search g root v md sb = depth_first_search g root v2 md sb) ∧
    (∀ fuel n d dep st acc vis o, g.kind n = .outVar o → n ∉ vis →
      dfsLoop g v md (fuel + 1) ((n, d, dep) :: st) acc vis =
        dfsLoop g v md fuel ((o, d + 1, dep) :: st) acc (insert n vis)) ∧
    (∀ s r, find_by_name g root (.str s) md = some (Except.ok (some r)) →
      isOutVarKind (g.kind r) = false) ∧
    (∀ s r, try_find_closest_by_name g root (.str s) md =
        some (Except.ok (some r)) →
      isOutVarKind (g.kind r) = false) ∧
    (∀ s l, find_all_with_name g root s md = some l →
      ∀ r ∈ l, isOutVarKind (g.kind r) = false) := by
  have key : ∀ (v3 : Nat → Bool) (sb3 : Bool) (l : List Nat),
      depth_first_search g root v3 md sb3 = some l →
      ∀ x ∈ l, isOutVarKind (g.kind x) = false := by
    intro v3 sb3 l hl x hx
    rw [depth_first_search] at hl
    obtain ⟨a, ha, hfa⟩ := Option.map_eq_some'.1 hl
    have hinv := dfsLoop_accumInv g v3 md (dfsFuel g) [(root, 0, 0)] [] ∅ a
      ⟨by simp [AccumInv], by simp⟩ ha
    rw [← hfa] at hx
    obtain ⟨p, hp, hpe⟩ := mem_final_list.1 hx
    exact hpe ▸ hinv.2.2 p hp
  refine ⟨key v sb, ?_, ?_, ?_, ?_, ?_⟩
  · intro v2 hagree
    rw [depth_first_search, depth_first_search, dfsAccum, dfsAccum,
      dfsLoop_visitor_agree g v v2 md hagree]
  · intro fuel n d dep st acc vis o hk hnv
    rw [dfsLoop, if_neg hnv]
    simp only [dfsStep, hk]
  · intro s r h
    rw [find_by_name] at h
    obtain ⟨l, hl, hfl⟩ := Option.map_eq_some'.1 h
    by_cases hlen : l.length > 1
    · rw [if_pos hlen] at hfl
      exact absurd hfl (by simp)
    · rw [if_neg hlen] at hfl
      rcases l with _ | ⟨r', rest⟩
      · simp at hfl
      · simp only [Except.ok.injEq, Option.some.injEq] at hfl
        exact hfl ▸ key _ false (r' :: rest) hl r' (List.mem_cons_self _ _)
  · intro s r h
    rw [try_find_closest_by_name] at h
    obtain ⟨l, hl, hfl⟩ := Option.map_eq_some'.1 h
    rcases l with _ | ⟨r', rest⟩
    · simp at hfl
    · simp only [Except.ok.injEq, Option.some.injEq] at hfl
      exact hfl ▸ key _ true (r' :: rest) hl r' (List.mem_cons_self _ _)
  · intro s l h
    rw [find_all_with_name] at h
    exact key _ false l h

/--
**C6** (corrected).  The claim fails for block-free graphs that contain
output variables: `depth_first_search` never collects an output variable
(it replaces it by its owner and `continue`s), while the loop of
`output_function_graph` has no `continue` in its OutputVariable branch and
appends every popped node — output variables included — to its accumulator
(see the counterexample).  Amended: on graphs with no block composites *and
no output variables*, the two traversals collect exactly the same nodes —
indeed the very same list.
-/
theorem export_dfs_same_collection (g : Graph) (root : Nat)
    (hc : g.Closed) (hr : root < g.size)
    (hnb : ∀ n, isBlockKind (g.kind n) = false)
    (hno : ∀ n, isOutVarKind (g.kind n) = false) :
    ∃ l r, depth_first_search g root (fun _ => true) none false = some l ∧
      exportLoop g (dfsFuel g) [root] [] ∅ "" = some r ∧ r.1 = l := by
  obtain ⟨a, ha⟩ := dfsAccum_isSome g hc hr (fun _ => true) none
  have hsim := export_dfs_sim g hnb hno (dfsFuel g) [(root, 0, 0)] [] ∅ ""
  simp only [List.map_cons, List.map_nil] at hsim
  have ha2 : dfsLoop g (fun _ => true) none (dfsFuel g) [(root, 0, 0)] [] ∅ =
      some a := ha
  rw [ha2] at hsim
  obtain ⟨r, hrr, hfr⟩ := Option.map_eq_some'.1 hsim
  refine ⟨a.map Prod.fst, r, ?_, hrr, by simpa using hfr⟩
  simpa using depth_first_search_eq_some g root (fun _ => true) none false a ha

/--
**C6 counterexample.**  `exA` contains no block composite, yet the export
loop collects `[0, 1, 2]` (including the output variable `1`) while
`depth_first_search` with the constant-True visitor collects `[0, 2]`: the
collected sets differ.
-/
theorem export_dfs_same_set_counterexample :
    isBlockKind (exA.kind 0) = false ∧ isBlockKind (exA.kind 1) = false ∧
    isBlockKind (exA.kind 2) = false ∧
    depth_first_search exA 0 (fun _ => true) none false = some [0, 2] ∧
    exportLoop exA (dfsFuel exA) [0] [] ∅ "" =
      some ([0, 1, 2], "Plus(U1) -> U0\nPlus() -> U2\n") ∧
    ¬ (([0, 1, 2] : List Nat).toFinset = ([0, 2] : List Nat).toFinset) := by
  refine ⟨by decide, by decide, by decide, by decide, by decide, by decide⟩

/-- Witness for `export_dfs_same_collection` on the cyclic two-function
graph `exCycle`, which has neither blocks nor output variables. -/
theorem export_dfs_same_collection_witness :
    Graph.Closed exCycle ∧ 0 < exCycle.size ∧
    (∀ n, isBlockKind (exCycle.kind n) = false) ∧
    (∀ n, isOutVarKind (exCycle.kind n) = false) ∧
    (∃ l r, depth_first_search exCycle 0 (fun _ => true) none false =
        some l ∧
      exportLoop exCycle (dfsFuel exCycle) [0] [] ∅ "" = some r ∧ r.1 = l) :=
  ⟨by decide, by decide,
    fun n => by cases n <;> rfl,
    fun n => by cases n <;> rfl,
    export_dfs_same_collection exCycle 0 (by decide) (by decide)
      (fun n => by cases n <;> rfl) (fun n => by cases n <;> rfl)⟩

/--
**C7** (corrected).  For each Function node the loop appends the line
`op_name(uid_1, ..., uid_k) -> output_uid` (`modelLine`) plus `'\n'` to the
model string, and the final string is `"\n".join(model.split("\n")[::-1])`.
Because every line ends in `'\n'`, the split produces the lines *plus a
trailing empty piece*, so the returned string is the reversed join of
`lines ++ [""]` — i.e. it starts with an extra newline whenever at least one
line was accumulated, rather than being exactly the lines joined in reversed
order as claimed (see the counterexample).
-/
theorem output_graph_text_format (g : Graph) (root : Nat) (avail : Bool)
    (hc : g.Closed) (hr : root < g.size)
    (hnl : ∀ n, n < g.size → ∀ c ∈ (modelLine g n).data, c ≠ '\n') :
    ∃ a m, exportLoop g (dfsFuel g) [root] [] ∅ "" = some (a, m) ∧
      m = linesStr g a ∧
      output_function_graph g root avail none none none none =
        some (Except.ok
          { text := joinNl ((funcLines g a ++ [""]).reverse)
            importAttempted := false
            writes := [] }) := by
  have hsome := exportLoop_isSome g hc (dfsFuel g) [root] [] ∅ ""
    (by intro e he
        rw [List.mem_singleton.1 he]
        exact hr)
    (by simp only [Finset.filter_empty, Finset.card_empty, Nat.sub_zero,
          List.length_singleton, dfsFuel]
        omega)
  obtain ⟨⟨a, m⟩, hrr⟩ := Option.isSome_iff_exists.mp hsome
  obtain ⟨new, h1, h2⟩ := exportLoop_model g (dfsFuel g) [root] [] ∅ ""
    (a, m) hrr
  have ha : a = new := by simpa using h1
  have hm : m = linesStr g a := by
    rw [ha]
    simpa using h2
  have hbound := exportLoop_accum_bound g hc (dfsFuel g) [root] [] ∅ ""
    (a, m)
    (by intro x hx
        rw [List.mem_singleton.1 hx]
        exact hr)
    (by simp) hrr
  have hsplit : pySplitNl m = funcLines g a ++ [""] := by
    rw [hm]
    exact pySplitNl_linesStr g a fun n hn => hnl n (hbound n hn)
  refine ⟨a, m, hrr, hm, ?_⟩
  simp only [output_function_graph, Option.isSome_none, Bool.or_self,
    Bool.false_and, Bool.false_eq_true, if_false, hrr, Option.map_some']
  rw [hsplit]
  rfl

/--
**C7 counterexample.**  On `exB` one line `Plus(U1) -> U0` is accumulated,
and the returned string is `"\nPlus(U1) -> U0"` — with a leading newline —
whereas the lines joined in reversed order would be `"Plus(U1) -> U0"`.
-/
theorem output_graph_text_counterexample :
    output_function_graph exB 0 true none none none none =
      some (Except.ok
        { text := "\nPlus(U1) -> U0"
          importAttempted := false
          writes := [] }) ∧
    exportLoop exB (dfsFuel exB) [0] [] ∅ "" =
      some ([0, 1], "Plus(U1) -> U0\n") ∧
    funcLines exB [0, 1] = ["Plus(U1) -> U0"] ∧
    "\nPlus(U1) -> U0" ≠ joinNl (List.reverse ["Plus(U1) -> U0"]) := by
  refine ⟨by decide, by decide, by decide, by decide⟩

/-- Witness for `output_graph_text_format` on `exB`. -/
theorem output_graph_text_format_witness :
    Graph.Closed exB ∧ 0 < exB.size ∧
    (∀ n, n < exB.size → ∀ c ∈ (modelLine exB n).data, c ≠ '\n') ∧
    (∃ a m, exportLoop exB (dfsFuel exB) [0] [] ∅ "" = some (a, m) ∧
      m = linesStr exB a ∧
      output_function_graph exB 0 true none none none none =
        some (Except.ok
          { text := joinNl ((funcLines exB a ++ [""]).reverse)
            importAttempted := false
            writes := [] })) :=
  ⟨by decide, by decide, by decide,
    output_graph_text_format exB 0 true (by decide) (by decide) (by decide)⟩

/-- `(fmt, p)` sits in the write list of a matching guard exactly when that
path argument is `some p` and `p` is truthy (non-empty). -/
lemma mem_pathWrite_same (fmt : String) (o : Option String) (p : String) :
    ((fmt, p) ∈ pathWrite fmt o) ↔ (o = some p ∧ p ≠ "") := by
  constructor
  · intro h
    rcases o with _ | q
    · exact absurd h (List.not_mem_nil _)
    · by_cases hq : q = ""
      · simp only [pathWrite, if_pos hq] at h
        exact absurd h (List.not_mem_nil _)
      · simp only [pathWrite, if_neg hq, List.mem_singleton] at h
        injection h with h1 h2
        subst h2
        exact ⟨rfl, hq⟩
  · rintro ⟨rfl, hp⟩
    simp only [pathWrite, if_neg hp, List.mem_singleton]

/-- A guard for a different format contributes no `(fmt2, p)` entry. -/
lemma not_mem_pathWrite (fmt fmt2 : String) (hne : fmt2 ≠ fmt)
    (o : Option String) (p : String) :
    ¬ ((fmt2, p) ∈ pathWrite fmt o) := by
  intro h
  rcases o with _ | q
  · exact absurd h (List.not_mem_nil _)
  · by_cases hq : q = ""
    · simp only [pathWrite, if_pos hq] at h
      exact absurd h (List.not_mem_nil _)
    · simp only [pathWrite, if_neg hq, List.mem_singleton] at h
      injection h with h1 h2
      exact hne h1

/--
**C8** (corrected).  `output_function_graph` needs the rendering library
exactly when one of the four path arguments is not `None`, and raises
`ImportError` when `pydot_ng` cannot be imported — that part is as claimed.
But the claimed "writes exactly the files whose paths were given" fails for
an empty-string path: the write guards (`if (svg_file_path):` etc.,
graph.py lines 250-257) test Python truthiness, so a path of `""` triggers
the import yet is never written (see the counterexample).  Amended: it
writes exactly the files whose paths were given *and non-empty*; when all
four are `None` it attempts no import (`importAttempted = false`), writes no
files, and still returns the textual serialization.
-/
theorem output_graph_import_and_writes (g : Graph) (root : Nat) (avail : Bool)
    (dotp pngp pdfp svgp : Option String) (hc : g.Closed)
    (hr : root < g.size) :
    ((∃ msg, output_function_graph g root avail dotp pngp pdfp svgp =
        some (Except.error msg)) ↔
      ((dotp.isSome || pngp.isSome || pdfp.isSome || svgp.isSome) = true ∧
        avail = false)) ∧
    (∀ res, output_function_graph g root avail dotp pngp pdfp svgp =
        some (Except.ok res) →
      res.importAttempted =
          (dotp.isSome || pngp.isSome || pdfp.isSome || svgp.isSome) ∧
      (∀ p, ("dot", p) ∈ res.writes ↔ (dotp = some p ∧ p ≠ "")) ∧
      (∀ p, ("png", p) ∈ res.writes ↔ (pngp = some p ∧ p ≠ "")) ∧
      (∀ p, ("pdf", p) ∈ res.writes ↔ (pdfp = some p ∧ p ≠ "")) ∧
      (∀ p, ("svg", p) ∈ res.writes ↔ (svgp = some p ∧ p ≠ ""))) ∧
    (dotp = none → pngp = none → pdfp = none → svgp = none →
      ∃ a m, exportLoop g (dfsFuel g) [root] [] ∅ "" = some (a, m) ∧
        output_function_graph g root avail dotp pngp pdfp svgp =
          some (Except.ok
            { text := joinNl ((pySplitNl m).reverse)
              importAttempted := false
              writes := [] })) := by
  by_cases hW : ((dotp.isSome || pngp.isSome || pdfp.isSome || svgp.isSome) &&
      !avail) = true
  · have hout : output_function_graph g root avail dotp pngp pdfp svgp =
        some (Except.error
          "SVG, PDF, PNG, and DOT format requires pydot_ng package. Unable to import pydot_ng.") := by
      simp only [output_function_graph]
      rw [if_pos hW]
    have hW' := hW
    rw [Bool.and_eq_true, Bool.not_eq_true'] at hW'
    obtain ⟨hW1, hW2⟩ := hW'
    refine ⟨⟨fun _ => ⟨hW1, hW2⟩, fun _ => ⟨_, hout⟩⟩,
      ?_, ?_⟩
    · intro res h
      rw [hout] at h
      simp at h
    · intro h1 h2 h3 h4
      rw [h1, h2, h3, h4] at hW1
      simp at hW1
  · have hsome := exportLoop_isSome g hc (dfsFuel g) [root] [] ∅ ""
      (by intro e he
          rw [List.mem_singleton.1 he]
          exact hr)
      (by simp only [Finset.filter_empty, Finset.card_empty, Nat.sub_zero,
            List.length_singleton, dfsFuel]
          omega)
    obtain ⟨⟨a, m⟩, hrr⟩ := Option.isSome_iff_exists.mp hsome
    have hout : output_function_graph g root avail dotp pngp pdfp svgp =
        some (Except.ok
          { text := joinNl ((pySplitNl m).reverse)
            importAttempted :=
              (dotp.isSome || pngp.isSome || pdfp.isSome || svgp.isSome)
            writes := writesFor dotp pngp pdfp svgp }) := by
      simp only [output_function_graph]
      rw [if_neg hW, hrr]
      rfl
    refine ⟨⟨?_, ?_⟩, ?_, ?_⟩
    · rintro ⟨msg, hmsg⟩
      rw [hout] at hmsg
      simp at hmsg
    · rintro ⟨hX, hA⟩
      exact absurd (by rw [hX, hA]; rfl) hW
    · intro res h
      rw [hout] at h
      replace h := Except.ok.inj (Option.some.inj h)
      subst h
      refine ⟨rfl, ?_, ?_, ?_, ?_⟩ <;> intro p
      · have n1 := not_mem_pathWrite "svg" "dot" (by decide) svgp p
        have n2 := not_mem_pathWrite "pdf" "dot" (by decide) pdfp p
        have n3 := not_mem_pathWrite "png" "dot" (by decide) pngp p
        simp [writesFor, List.mem_append, n1, n2, n3, mem_pathWrite_same]
      · have n1 := not_mem_pathWrite "svg" "png" (by decide) svgp p
        have n2 := not_mem_pathWrite "pdf" "png" (by decide) pdfp p
        have n3 := not_mem_pathWrite "dot" "png" (by decide) dotp p
        simp [writesFor, List.mem_append, n1, n2, n3, mem_pathWrite_same]
      · have n1 := not_mem_pathWrite "svg" "pdf" (by decide) svgp p
        have n2 := not_mem_pathWrite "png" "pdf" (by decide) pngp p
        have n3 := not_mem_pathWrite "dot" "pdf" (by decide) dotp p
        simp [writesFor, List.mem_append, n1, n2, n3, mem_pathWrite_same]
      · have n1 := not_mem_pathWrite "pdf" "svg" (by decide) pdfp p
        have n2 := not_mem_pathWrite "png" "svg" (by decide) pngp p
        have n3 := not_mem_pathWrite "dot" "svg" (by decide) dotp p
        simp [writesFor, List.mem_append, n1, n2, n3, mem_pathWrite_same]
    · intro h1 h2 h3 h4
      subst h1
      subst h2
      subst h3
      subst h4
      refine ⟨a, m, hrr, ?_⟩
      rw [hout]
      rfl

/--
**C8 counterexample.**  With `dot_file_path = ""` (and pydot available) the
module import is attempted (`importAttempted = true`) but Python's
`if (dot_file_path):` guard is falsy on the empty string, so nothing is
written: the program does not "write exactly the files whose paths were
given", refuting the original writes condition at the path `""`.
-/
theorem output_graph_writes_counterexample :
    output_function_graph exB 0 true (some "") none none none =
      some (Except.ok
        { text := "\nPlus(U1) -> U0"
          importAttempted := true
          writes := [] }) ∧
    ¬ (∀ res, output_function_graph exB 0 true (some "") none none none =
        some (Except.ok res) →
      ∀ p, ("dot", p) ∈ res.writes ↔ (some "" : Option String) = some p) := by
  constructor
  · decide
  · intro h
    have h2 := (h { text := "\nPlus(U1) -> U0"
                    importAttempted := true
                    writes := [] } (by decide) "").mpr rfl
    exact absurd h2 (by decide)

/-- Witness for `output_graph_import_and_writes` on `exB` with a dot path
and an unavailable rendering library. -/
theorem output_graph_import_and_writes_witness :
    Graph.Closed exB ∧ 0 < exB.size ∧
    (((∃ msg, output_function_graph exB 0 false (some "net.dot") none none
          none = some (Except.error msg)) ↔
      (((some "net.dot" : Option String).isSome ||
          (none : Option String).isSome || (none : Option String).isSome ||
          (none : Option String).isSome) = true ∧ false = false)) ∧
    (∀ res, output_function_graph exB 0 false (some "net.dot") none none
        none = some (Except.ok res) →
      res.importAttempted = ((some "net.dot" : Option String).isSome ||
          (none : Option String).isSome || (none : Option String).isSome ||
          (none : Option String).isSome) ∧
      (∀ p, ("dot", p) ∈ res.writes ↔
        ((some "net.dot" : Option String) = some p ∧ p ≠ "")) ∧
      (∀ p, ("png", p) ∈ res.writes ↔
        ((none : Option String) = some p ∧ p ≠ "")) ∧
      (∀ p, ("pdf", p) ∈ res.writes ↔
        ((none : Option String) = some p ∧ p ≠ "")) ∧
      (∀ p, ("svg", p) ∈ res.writes ↔
        ((none : Option String) = some p ∧ p ≠ ""))) ∧
    ((some "net.dot" : Option String) = none →
      (none : Option String) = none → (none : Option String) = none →
      (none : Option String) = none →
      ∃ a m, exportLoop exB (dfsFuel exB) [0] [] ∅ "" = some (a, m) ∧
        output_function_graph exB 0 false (some "net.dot") none none none =
          some (Except.ok
            { text := joinNl ((pySplitNl m).reverse)
              importAttempted := false
              writes := [] }))) :=
  ⟨by decide, by decide,
    output_graph_import_and_writes exB 0 false (some "net.dot") none none
      none (by decide) (by decide)⟩

end CntkGraph

